import Mathlib

/-!
# A verification model of `graph.py` (arush15june/property-graph)

This file shallowly embeds the in-memory property graph engine of
`src/graph.py` and proves the specification claims about it.

Modelling conventions:

* Python objects live on explicit heaps. A `Nat` index into a heap is the
  model of a Python object reference, so reference identity (`is`) is
  index equality, and mutation of a shared object is an update of the heap
  cell both references point to.
* Python `dict`s are insertion-ordered association lists (`List (K × V)`):
  updating an existing key keeps its position, inserting a fresh key
  appends, and iteration order is list order — exactly CPython semantics.
* Property values are flat scalars (string / integer / boolean), the value
  domain the specification assigns to property maps.  Comparison is
  Python `==`, under which a boolean equals its numeric value.
* The unbounded `while` walk of `follow_edge_on_label` is given a fuel
  parameter; `none` as the walk's result means the fuel was exhausted, so
  non-termination of the source loop is "for every fuel the result is
  `none`".
* Methods are state transformers `Graph → Graph × α` mirroring the Python
  method bodies statement by statement; pure queries return the state
  component unchanged because their bodies contain no writes.
* A raised Python `KeyError` (possible in `add_edge`, lines 96–97 of the
  source) is an explicit `keyError` outcome; the partial mutations made
  before the raise remain in the returned state, as they do in Python.
-/

namespace PropertyGraph

/-- Flat scalar property values: the string/number/boolean domain of the
property maps (`graph.py` stores whatever the caller puts in the dict; the
driver and the spec use these scalars). -/
inductive Value where
  | str (s : String)
  | int (n : Int)
  | bool (b : Bool)
deriving DecidableEq, Repr

/-- Python `==` on scalar values: equality within a kind, and a boolean
compares equal to its integer value (`True == 1`, `False == 0` in Python,
because `bool` is a subclass of `int`).  Strings never equal numbers. -/
def pyEq : Value → Value → Bool
  | .str a, .str b => a == b
  | .int a, .int b => a == b
  | .bool a, .bool b => a == b
  | .int a, .bool b => a == (if b then (1 : Int) else 0)
  | .bool a, .int b => (if a then (1 : Int) else 0) == b
  | _, _ => false

/-- Python `d.get(key) == val` where `d.get` yields `None` on a missing
key: `None` never equals a scalar value. -/
def pyEqOpt : Option Value → Value → Bool
  | none, _ => false
  | some v, w => pyEq v w

/-- A property map: a flat, insertion-ordered string-keyed dictionary. -/
abbrev Props := List (String × Value)

section Dict

variable {K V : Type} [DecidableEq K]

/-- Python `d.get(k)` / `d[k]` lookup on an insertion-ordered dict. -/
def dictGet : List (K × V) → K → Option V
  | [], _ => none
  | (k', v) :: rest, k => if k' = k then some v else dictGet rest k

/-- Python `d[k] = v`: replace the value at an existing key in place
(keeping its insertion position), or append a fresh key at the end. -/
def dictSet : List (K × V) → K → V → List (K × V)
  | [], k, v => [(k, v)]
  | (k', v') :: rest, k, v =>
      if k' = k then (k', v) :: rest else (k', v') :: dictSet rest k v

/-- A dict is well-formed when its keys are pairwise distinct (always true
of a Python dict). -/
def NodupKeys (d : List (K × V)) : Prop := (d.map Prod.fst).Nodup

end Dict

/-- Identifiers.  Modelled from the spec: `shortuuid.uuid()` (the external
`shortuuid` library, not part of the repository source) "produces short,
globally-unique, random identifier strings" with "negligible collision
probability".  The idealization tags generated identifiers with the value
of a per-store counter, so a freshly generated identifier differs from
every previously generated one and from every caller-chosen string; a
caller may still reuse any identifier it has already seen. -/
inductive UID where
  | gen (n : Nat)
  | user (s : String)
deriving DecidableEq, Repr

/-- A `Node` dataclass object: uid, a reference to its properties dict,
and the two insertion-ordered adjacency dicts mapping edge uid to an edge
object reference. -/
structure NodeObj where
  uid : UID
  props : Nat
  outgoing : List (UID × Nat)
  incoming : List (UID × Nat)
deriving DecidableEq, Repr

instance : Inhabited NodeObj := ⟨⟨.user "", 0, [], []⟩⟩

/-- An `Edge` dataclass object: uid, label, references to the tail and
head node objects, and a reference to its properties dict. -/
structure EdgeObj where
  uid : UID
  label : String
  tail : Nat
  head : Nat
  props : Nat
deriving DecidableEq, Repr

instance : Inhabited EdgeObj := ⟨⟨.user "", "", 0, 0, 0⟩⟩

/-- The `Graph` store together with the object heaps.  `nodes` and `edges`
are the two top-level uid-keyed mappings of the source; the three heaps
hold the actual objects, and `Nat` indices into them are Python object
references.  `uidCounter` drives the idealized identifier generator.
`edgeDefaultProps` is the reference to the single dict allocated for
`add_edge`'s `properties: dict = {}` default argument — Python evaluates
that literal once, so every call omitting `properties` shares it. -/
structure Graph where
  nodeHeap : List NodeObj
  edgeHeap : List EdgeObj
  propsHeap : List Props
  nodes : List (UID × Nat)
  edges : List (UID × Nat)
  uidCounter : Nat
  edgeDefaultProps : Nat
deriving Repr

/-- `Graph()`: empty store.  The props heap starts with the one shared
default dict of `add_edge` (allocated at function-definition time). -/
def Graph.init : Graph :=
  { nodeHeap := [], edgeHeap := [], propsHeap := [[]],
    nodes := [], edges := [], uidCounter := 0, edgeDefaultProps := 0 }

/-- Dereference a node object. -/
def nodeObj (g : Graph) (r : Nat) : NodeObj := g.nodeHeap.getD r default

/-- Dereference an edge object. -/
def edgeObj (g : Graph) (r : Nat) : EdgeObj := g.edgeHeap.getD r default

/-- Dereference a properties dict. -/
def propsObj (g : Graph) (r : Nat) : Props := g.propsHeap.getD r []

/-- In-place mutation of the node object behind reference `r`. -/
def updateNode (g : Graph) (r : Nat) (f : NodeObj → NodeObj) : Graph :=
  { g with nodeHeap := g.nodeHeap.set r (f (nodeObj g r)) }

/-- Direct dataclass construction `Node(uid, properties)`: allocates the
properties dict and the node object on the heaps.  Used internally by
`add_node`; a caller can also do this directly (the dataclass is public),
producing a node object the store does not track. -/
def newNode (g : Graph) (uid : UID) (properties : Props) : Graph × Nat :=
  let pref := g.propsHeap.length
  let g := { g with propsHeap := g.propsHeap ++ [properties] }
  let nref := g.nodeHeap.length
  (⟨g.nodeHeap ++ [⟨uid, pref, [], []⟩], g.edgeHeap, g.propsHeap,
    g.nodes, g.edges, g.uidCounter, g.edgeDefaultProps⟩, nref)

/-- `Graph._generate_uid()` plus the counter bump of the idealized
generator.  Python evaluates `kwargs.get('uid', self._generate_uid())`
unconditionally, so the generator runs (and the counter advances) on every
`add_node`/`add_edge` call, explicit uid or not. -/
def genUid (g : Graph) : Graph × UID :=
  ({ g with uidCounter := g.uidCounter + 1 }, UID.gen g.uidCounter)

/-- `Graph.add_node(properties, **kwargs)`: pick the explicit uid if
given, else a generated one; build `Node(uid, properties)` with empty
adjacency dicts; store it in the node mapping (overwriting any existing
entry at that uid); return it (`return self.nodes[uid]`, a reference to
the object just stored). -/
def Graph.add_node (g : Graph) (properties : Props) (uid? : Option UID) :
    Graph × Nat :=
  let p := genUid g
  let uid := uid?.getD p.2
  let q := newNode p.1 uid properties
  let g := { q.1 with nodes := dictSet q.1.nodes uid q.2 }
  (g, q.2)

/-- `Graph.node(uid)`: `self.nodes.get(uid, None)`. -/
def Graph.node (g : Graph) (uid : UID) : Graph × Option Nat :=
  (g, dictGet g.nodes uid)

/-- `Graph.edge(uid)`: `self.edges.get(uid, None)`. -/
def Graph.edge (g : Graph) (uid : UID) : Graph × Option Nat :=
  (g, dictGet g.edges uid)

/-- Outcome of `Graph.add_edge`: the `None` failure sentinel, a raised
`KeyError` (from `self.nodes[tail_uid]` / `self.nodes[head_uid]` when that
uid is not a key of the node mapping), or the created edge. -/
inductive AddEdgeResult where
  | failure
  | keyError
  | ok (eref : Nat)
deriving DecidableEq, Repr

/-- `Graph.add_edge(tail, label, head, properties={}, **kwargs)`,
translated line by line:

* the caller's `properties` argument is either a freshly allocated dict
  (explicit argument) or the one shared default dict;
* `uid = kwargs.get('uid', self._generate_uid())` — the generator always
  runs;
* `if self.node(tail.uid) is None and self.node(head.uid) is None:
  return None`;
* `self.edges[uid] = Edge(uid, label, tail, head, properties)`;
* `self.nodes[tail_uid].outgoing[uid] = self.edges[uid]` — raises
  `KeyError` if `tail.uid` is not a key of the node mapping, and note the
  object mutated is the mapping's current entry at `tail.uid`, not
  necessarily the `tail` argument itself;
* `self.nodes[head_uid].incoming[uid] = self.edges[uid]` — same;
* `return self.edges.get(uid, None)`. -/
def Graph.add_edge (g : Graph) (tail : Nat) (label : String) (head : Nat)
    (properties : Option Props) (uid? : Option UID) : Graph × AddEdgeResult :=
  let ap : Graph × Nat :=
    match properties with
    | none => (g, g.edgeDefaultProps)
    | some p => ({ g with propsHeap := g.propsHeap ++ [p] }, g.propsHeap.length)
  let g := ap.1
  let pref := ap.2
  let u := genUid g
  let g := u.1
  let uid := uid?.getD u.2
  if dictGet g.nodes (nodeObj g tail).uid = none ∧
     dictGet g.nodes (nodeObj g head).uid = none then
    (g, .failure)
  else
    let tail_uid := (nodeObj g tail).uid
    let head_uid := (nodeObj g head).uid
    let eref := g.edgeHeap.length
    let g := { g with edgeHeap := g.edgeHeap ++ [⟨uid, label, tail, head, pref⟩],
                      edges := dictSet g.edges uid eref }
    match dictGet g.nodes tail_uid with
    | none => (g, .keyError)
    | some tref =>
      let g := updateNode g tref
        (fun n => { n with outgoing := dictSet n.outgoing (edgeObj g eref).uid eref })
      match dictGet g.nodes head_uid with
      | none => (g, .keyError)
      | some href =>
        let g := updateNode g href
          (fun n => { n with incoming := dictSet n.incoming (edgeObj g eref).uid eref })
        match dictGet g.edges uid with
        | none => (g, .failure)
        | some r => (g, .ok r)

/-- `Graph._match_dict(d1, d2)`: count the pairs of `d2` whose key `d1`
maps (per `d1.get`) to a Python-`==`-equal value. -/
def match_dict (d1 d2 : Props) : Nat :=
  d2.foldl (fun m kv => if pyEqOpt (dictGet d1 kv.1) kv.2 then m + 1 else m) 0

/-- A second definition written from the specification's words rather than
the source, for refinement comparison: "increments a counter if the
candidate has that exact key mapped to an equal value; comparison is
single-level (… no type coercion …)" — so equality here is exact equality
of scalar values, with no boolean/number identification. -/
def match_dict_specEq (d1 d2 : Props) : Nat :=
  d2.foldl (fun m kv =>
    if dictGet d1 kv.1 = some kv.2 then m + 1 else m) 0

/-- `Graph.find_node(properties)`: scan `self.nodes` in insertion order,
keep the nodes with a nonzero `_match_dict` count (`if matches:`). -/
def Graph.find_node (g : Graph) (properties : Props) : Graph × List Nat :=
  (g, (g.nodes.map Prod.snd).filter
    (fun r => match_dict (propsObj g (nodeObj g r).props) properties != 0))

/-- `Graph.find_node_edges_label_outgoing(node, label)`: the values of
`node.outgoing` (in insertion order) whose label equals `label`.  Note the
method reads the node object passed to it, not the store's mapping. -/
def Graph.find_node_edges_label_outgoing (g : Graph) (nref : Nat) (label : String) :
    Graph × List Nat :=
  (g, ((nodeObj g nref).outgoing.map Prod.snd).filter
    (fun er => (edgeObj g er).label == label))

/-- `Graph.find_node_edges_label_incoming(node, label)`: symmetric, over
`node.incoming`. -/
def Graph.find_node_edges_label_incoming (g : Graph) (nref : Nat) (label : String) :
    Graph × List Nat :=
  (g, ((nodeObj g nref).incoming.map Prod.snd).filter
    (fun er => (edgeObj g er).label == label))

/-- Result of `follow_edge_on_label`: the `None` "no result" sentinel, or
the final node. -/
inductive FollowOutcome where
  | noResult
  | result (nref : Nat)
deriving DecidableEq, Repr

/-- The `while` loop of `follow_edge_on_label`, with fuel.  Each iteration
recomputes the label-filtered outgoing list of the current head; an empty
list ends the walk at the current node.  `none` means the fuel ran out
before the loop exited — the loop itself has no bound, so source-level
non-termination is `none` for every fuel. -/
def followLoop (g : Graph) (label : String) : Nat → Nat → Graph × Option Nat
  | 0, _ => (g, none)
  | fuel + 1, curr =>
    let p := g.find_node_edges_label_outgoing curr label
    match p.2 with
    | [] => (p.1, some curr)
    | e :: _ => followLoop p.1 label fuel ((edgeObj p.1 e).head)

/-- `Graph.follow_edge_on_label(edge, label)`: start at `edge.head`; if it
has no outgoing edge with the label, return `None`; otherwise follow the
first label-matching outgoing edge repeatedly until reaching a node with
none, and return that node. -/
def Graph.follow_edge_on_label (g : Graph) (eref : Nat) (label : String)
    (fuel : Nat) : Graph × Option FollowOutcome :=
  let curr_head := (edgeObj g eref).head
  let p := g.find_node_edges_label_outgoing curr_head label
  match p.2 with
  | [] => (p.1, some .noResult)
  | _ :: _ =>
    let q := followLoop p.1 label fuel curr_head
    (q.1, q.2.map .result)

/-- The Python statement `edge.properties[key] = value`: external mutation
of the properties dict the edge references (the spec's public surface
includes direct access to `properties`). -/
def writeEdgeProp (g : Graph) (eref : Nat) (k : String) (v : Value) : Graph :=
  let pref := (edgeObj g eref).props
  { g with propsHeap := g.propsHeap.set pref (dictSet (propsObj g pref) k v) }

/-! ## Proof-side definitions for the traversal walk -/

/-- The label-filtered outgoing adjacency list the walk recomputes at each
node (the `.2` of the query). -/
def outList (g : Graph) (cur : Nat) (label : String) : List Nat :=
  (g.find_node_edges_label_outgoing cur label).2

/-- One deterministic step of the walk: the head of the first outgoing
edge with the label, if any. -/
def stepOpt (g : Graph) (label : String) (cur : Nat) : Option Nat :=
  match outList g cur label with
  | [] => none
  | e :: _ => some ((edgeObj g e).head)

/-- The relation "there is an edge labeled `label` from node `a` to node
`b` in `a`'s outgoing adjacency". -/
def labelStep (g : Graph) (label : String) (a b : Nat) : Prop :=
  ∃ kv ∈ (nodeObj g a).outgoing,
    (edgeObj g kv.2).label = label ∧ (edgeObj g kv.2).head = b

/-- The subgraph of edges labeled `label` that is reachable from `start`
is acyclic: no node reachable from `start` lies on a nontrivial
`labelStep` cycle. -/
def labelAcyclicFrom (g : Graph) (label : String) (start : Nat) : Prop :=
  ∀ a, Relation.ReflTransGen (labelStep g label) start a →
    ¬ Relation.TransGen (labelStep g label) a a

/-- The deterministic trajectory of the walk (the junk value 0 is used
when no step is possible; the termination argument only evaluates it where
a step exists). -/
def walkTraj (g : Graph) (label : String) (cur0 : Nat) : Nat → Nat
  | 0 => cur0
  | n + 1 => (stepOpt g label (walkTraj g label cur0 n)).getD 0

/-! ## Reachable store states -/

/-- A caller-supplied explicit uid is one the caller could possess: an
arbitrary string, or a generated identifier it has already seen.  (The
idealized generator never collides with an identifier nobody has seen.) -/
def UIDok (g : Graph) (uid? : Option UID) : Prop :=
  ∀ n, uid? = some (.gen n) → n < g.uidCounter

/-- Graph states reachable from `Graph()` through the store's public
create operations.  `add_edge` may receive any node objects previously
created by `add_node` on this store (any references into the node heap),
including stale objects an explicit-uid overwrite displaced from the
mapping — the caller still holds them. -/
inductive Reach : Graph → Prop
  | init : Reach Graph.init
  | add_node (g : Graph) (properties : Props) (uid? : Option UID) :
      Reach g → UIDok g uid? → Reach (g.add_node properties uid?).1
  | add_edge (g : Graph) (tail : Nat) (label : String) (head : Nat)
      (properties : Option Props) (uid? : Option UID) :
      Reach g → tail < g.nodeHeap.length → head < g.nodeHeap.length →
      UIDok g uid? → Reach (g.add_edge tail label head properties uid?).1

/-- Reachability restricted to well-behaved `add_edge` calls: the tail and
head objects are, at call time, the node mapping's current entries for
their uids.  This is automatic as long as no explicit-uid overwrite has
displaced a node object the caller still holds. -/
inductive GoodReach : Graph → Prop
  | init : GoodReach Graph.init
  | add_node (g : Graph) (properties : Props) (uid? : Option UID) :
      GoodReach g → UIDok g uid? → GoodReach (g.add_node properties uid?).1
  | add_edge (g : Graph) (tail : Nat) (label : String) (head : Nat)
      (properties : Option Props) (uid? : Option UID) :
      GoodReach g → tail < g.nodeHeap.length → head < g.nodeHeap.length →
      UIDok g uid? →
      dictGet g.nodes (nodeObj g tail).uid = some tail →
      dictGet g.nodes (nodeObj g head).uid = some head →
      GoodReach (g.add_edge tail label head properties uid?).1

/-- The store invariant maintained by well-behaved creation: every mapped
edge is linked exactly once into its tail's outgoing adjacency and exactly
once into its head's incoming adjacency, both keyed by its uid, and all
references and keys are coherent. -/
structure StoreInv (g : Graph) : Prop where
  nodesNodup : NodupKeys g.nodes
  edgesNodup : NodupKeys g.edges
  adjNodup : ∀ i, i < g.nodeHeap.length →
    NodupKeys (nodeObj g i).outgoing ∧ NodupKeys (nodeObj g i).incoming
  nodesValid : ∀ k r, dictGet g.nodes k = some r →
    r < g.nodeHeap.length ∧ (nodeObj g r).uid = k
  edgesValid : ∀ k r, dictGet g.edges k = some r →
    r < g.edgeHeap.length ∧ (edgeObj g r).uid = k ∧
    (edgeObj g r).tail < g.nodeHeap.length ∧ (edgeObj g r).head < g.nodeHeap.length
  adjBound : ∀ i, i < g.nodeHeap.length →
    (∀ kv ∈ (nodeObj g i).outgoing, kv.2 < g.edgeHeap.length) ∧
    (∀ kv ∈ (nodeObj g i).incoming, kv.2 < g.edgeHeap.length)
  linked : ∀ k r, dictGet g.edges k = some r →
    dictGet (nodeObj g (edgeObj g r).tail).outgoing k = some r ∧
    dictGet (nodeObj g (edgeObj g r).head).incoming k = some r
  uniqueOut : ∀ k r, dictGet g.edges k = some r → ∀ i, i < g.nodeHeap.length →
    ∀ kv ∈ (nodeObj g i).outgoing, kv.2 = r → i = (edgeObj g r).tail ∧ kv.1 = k
  uniqueIn : ∀ k r, dictGet g.edges k = some r → ∀ i, i < g.nodeHeap.length →
    ∀ kv ∈ (nodeObj g i).incoming, kv.2 = r → i = (edgeObj g r).head ∧ kv.1 = k

/-- Every generated uid occurring as a node-mapping key was produced by a
past tick of the counter (invariant of all reachable states; what makes a
freshly generated uid new). -/
def GenKeysBounded (g : Graph) : Prop :=
  ∀ n, UID.gen n ∈ g.nodes.map Prod.fst → n < g.uidCounter

/-- The props heap after `add_edge`'s argument evaluation: an explicit
`properties` dict is a fresh allocation, an omitted one allocates
nothing. -/
def aePropsHeap (g : Graph) : Option Props → List Props
  | none => g.propsHeap
  | some p => g.propsHeap ++ [p]

/-- The reference `add_edge` stores as the new edge's properties: the
fresh allocation, or the shared default dict. -/
def aePref (g : Graph) : Option Props → Nat
  | none => g.edgeDefaultProps
  | some _ => g.propsHeap.length

/-- Normal form of the store state at `add_edge`'s failure return: only
the props allocation and the generator tick happened. -/
def aeGraphA (g : Graph) (props : Option Props) : Graph :=
  { g with propsHeap := aePropsHeap g props, uidCounter := g.uidCounter + 1 }

/-- The `Edge` object `add_edge` constructs. -/
def aeEdge (g : Graph) (t : Nat) (label : String) (h : Nat)
    (props : Option Props) (uid : UID) : EdgeObj :=
  ⟨uid, label, t, h, aePref g props⟩

/-- Normal form of the store right after `self.edges[uid] = Edge(...)`:
the edge object is on the heap and in the mapping, but not yet linked into
any adjacency.  This is the state in which a `KeyError` on the tail lookup
leaves the store. -/
def aeGraphB (g : Graph) (t : Nat) (label : String) (h : Nat)
    (props : Option Props) (uid : UID) : Graph :=
  { aeGraphA g props with
      edgeHeap := g.edgeHeap ++ [aeEdge g t label h props uid],
      edges := dictSet g.edges uid g.edgeHeap.length }

/-- Normal form after `self.nodes[tail_uid].outgoing[...] = ...`: the
mapping's entry for the tail uid (reference `tref`) got the edge in its
outgoing adjacency.  A `KeyError` on the head lookup leaves the store
here. -/
def aeGraphC (g : Graph) (t : Nat) (label : String) (h : Nat)
    (props : Option Props) (uid : UID) (tref : Nat) : Graph :=
  updateNode (aeGraphB g t label h props uid) tref (fun n =>
    let key := (edgeObj (aeGraphB g t label h props uid) g.edgeHeap.length).uid
    { n with outgoing := dictSet n.outgoing key g.edgeHeap.length })

/-- Normal form after `self.nodes[head_uid].incoming[...] = ...`: the
fully linked success state. -/
def aeGraphD (g : Graph) (t : Nat) (label : String) (h : Nat)
    (props : Option Props) (uid : UID) (tref href : Nat) : Graph :=
  updateNode (aeGraphC g t label h props uid tref) href (fun n =>
    let key := (edgeObj (aeGraphC g t label h props uid tref) g.edgeHeap.length).uid
    { n with incoming := dictSet n.incoming key g.edgeHeap.length })

/-! ## Concrete stores used by the claims -/

/-- Two nodes both tracked by the store, no edges: the generic scaffold
for witnesses. -/
def gTwo : Graph :=
  ((Graph.init.add_node [("name", .str "A")] none).1.add_node
    [("name", .str "B")] none).1

/-- `A --L--> B` and nothing else: node 0 → node 1, edge reference 0. -/
def gLine : Graph := (gTwo.add_edge 0 "L" 1 none none).1

/-- The two-node label cycle of the spec's test sentence, built through
the public operations: `X --L--> Y --L--> X` and nothing else.
Node references: X = 0, Y = 1; edge references: X→Y = 0, Y→X = 1. -/
def gCyc : Graph :=
  let s2 := ((Graph.init.add_node [("name", .str "X")] none).1.add_node
    [("name", .str "Y")] none).1
  ((s2.add_edge 0 "L" 1 none none).1.add_edge 1 "L" 0 none none).1

/-- A two-node label cycle `X --L--> Y --L--> X` (node references X = 0,
Y = 1) plus an escape edge `Y --L--> Z` inserted before the cycle-closing
edge.  Edge references: X→Y = 0, Y→Z = 1, Y→X = 2; node Z = 2. -/
def gEsc : Graph :=
  let s3 := (((Graph.init.add_node [("name", .str "X")] none).1.add_node
    [("name", .str "Y")] none).1.add_node [("name", .str "Z")] none).1
  (((s3.add_edge 0 "L" 1 none none).1.add_edge 1 "L" 2 none
    none).1.add_edge 1 "L" 0 none none).1

/-- The chain `A --WITHIN--> B --WITHIN--> C` of the spec's test sentence,
where C has no outgoing `WITHIN` edge.  Node references A = 0, B = 1,
C = 2; edge references A→B = 0, B→C = 1. -/
def gChain : Graph :=
  let s3 := (((Graph.init.add_node [("name", .str "A")] none).1.add_node
    [("name", .str "B")] none).1.add_node [("name", .str "C")] none).1
  ((s3.add_edge 0 "WITHIN" 1 none none).1.add_edge 1 "WITHIN" 2 none none).1

/-- A store holding one tracked node `H` (reference 0) and one node object
`T` built by direct dataclass construction `Node('t', {...})` (reference
1), whose uid `t` the store does not track. -/
def gOneEnd : Graph :=
  (newNode (Graph.init.add_node [("name", .str "H")] none).1 (.user "t")
    [("name", .str "T")]).1

/-- The overwrite scenario: two `add_node` calls with the same explicit
uid `U` (objects O1 = reference 0, then O2 = reference 1, which displaces
O1 from the mapping), a third tracked node H = reference 2, then
`add_edge(O1, "L", H)` called with the stale object O1.  The store links
the created edge into O2's outgoing adjacency — not O1's, though O1 is the
edge's tail. -/
def gBad : Graph :=
  let s3 := (((Graph.init.add_node [] (some (.user "U"))).1.add_node []
    (some (.user "U"))).1.add_node [] none).1
  (s3.add_edge 0 "L" 2 none none).1

/-! ## Dictionary lemmas -/

section DictLemmas

variable {K V : Type} [DecidableEq K]

theorem dictGet_dictSet_self (d : List (K × V)) (k : K) (v : V) :
    dictGet (dictSet d k v) k = some v := by
  induction d with
  | nil => simp [dictGet, dictSet]
  | cons kv rest ih =>
    obtain ⟨a, b⟩ := kv
    by_cases h : a = k
    · simp [dictSet, dictGet, h]
    · simpa [dictSet, dictGet, h] using ih

theorem dictGet_dictSet_ne (d : List (K × V)) {k k' : K} (h : k' ≠ k) (v : V) :
    dictGet (dictSet d k v) k' = dictGet d k' := by
  have hn : ¬ k = k' := fun hh => h hh.symm
  induction d with
  | nil => simp [dictGet, dictSet, hn]
  | cons kv rest ih =>
    obtain ⟨a, b⟩ := kv
    by_cases hk : a = k
    · subst hk
      simp [dictSet, dictGet, hn]
    · by_cases hk' : a = k'
      · subst hk'
        have hne : ¬ a = k := hk
        simp [dictSet, dictGet, hne, hn]
      · simpa [dictSet, dictGet, hk, hk'] using ih

theorem mem_dictSet (d : List (K × V)) {a : K} {b : V} {k : K} {v : V}
    (h : (a, b) ∈ dictSet d k v) : (a = k ∧ b = v) ∨ (a, b) ∈ d := by
  induction d with
  | nil =>
    simp [dictSet] at h
    exact Or.inl ⟨h.1, h.2⟩
  | cons kv rest ih =>
    obtain ⟨a', b'⟩ := kv
    by_cases hk : a' = k
    · subst hk
      have hh : dictSet ((a', b') :: rest) a' v = (a', v) :: rest := by
        simp [dictSet]
      rw [hh] at h
      rcases List.mem_cons.mp h with h | h
      · exact Or.inl ⟨(congrArg Prod.fst h : a = a'), (congrArg Prod.snd h : b = v)⟩
      · exact Or.inr (List.mem_cons_of_mem _ h)
    · have hh : dictSet ((a', b') :: rest) k v = (a', b') :: dictSet rest k v := by
        simp [dictSet, hk]
      rw [hh] at h
      rcases List.mem_cons.mp h with h | h
      · exact Or.inr (List.mem_cons.mpr (Or.inl h))
      · rcases ih h with h' | h'
        · exact Or.inl h'
        · exact Or.inr (List.mem_cons_of_mem _ h')

theorem mem_dictSet_of_ne (d : List (K × V)) {a : K} {b : V} {k : K} (v : V)
    (hmem : (a, b) ∈ d) (hne : a ≠ k) : (a, b) ∈ dictSet d k v := by
  induction d with
  | nil => simp at hmem
  | cons kv rest ih =>
    obtain ⟨a', b'⟩ := kv
    by_cases hk : a' = k
    · have hh : dictSet ((a', b') :: rest) k v = (a', v) :: rest := by
        simp [dictSet, hk]
      rw [hh]
      rcases List.mem_cons.mp hmem with h | h
      · exact absurd ((congrArg Prod.fst h).trans hk : a = k) hne
      · exact List.mem_cons_of_mem _ h
    · have hh : dictSet ((a', b') :: rest) k v = (a', b') :: dictSet rest k v := by
        simp [dictSet, hk]
      rw [hh]
      rcases List.mem_cons.mp hmem with h | h
      · exact List.mem_cons.mpr (Or.inl h)
      · exact List.mem_cons_of_mem _ (ih h)

theorem mem_map_fst_dictSet (d : List (K × V)) (k : K) (v : V) (a : K) :
    a ∈ (dictSet d k v).map Prod.fst ↔ a ∈ d.map Prod.fst ∨ a = k := by
  induction d with
  | nil => simp [dictSet]
  | cons kv rest ih =>
    obtain ⟨a', b'⟩ := kv
    by_cases hk : a' = k
    · subst hk
      have hh : dictSet ((a', b') :: rest) a' v = (a', v) :: rest := by
        simp [dictSet]
      rw [hh]
      simp only [List.map_cons, List.mem_cons]
      tauto
    · have hh : dictSet ((a', b') :: rest) k v = (a', b') :: dictSet rest k v := by
        simp [dictSet, hk]
      rw [hh]
      simp only [List.map_cons, List.mem_cons, ih]
      tauto

theorem nodupKeys_dictSet (d : List (K × V)) (hd : NodupKeys d) (k : K) (v : V) :
    NodupKeys (dictSet d k v) := by
  induction d with
  | nil => simp [dictSet, NodupKeys]
  | cons kv rest ih =>
    obtain ⟨a', b'⟩ := kv
    simp only [NodupKeys, List.map_cons, List.nodup_cons] at hd
    by_cases hk : a' = k
    · subst hk
      have hh : dictSet ((a', b') :: rest) a' v = (a', v) :: rest := by
        simp [dictSet]
      rw [hh]
      simp only [NodupKeys, List.map_cons, List.nodup_cons]
      exact ⟨hd.1, hd.2⟩
    · have hh : dictSet ((a', b') :: rest) k v = (a', b') :: dictSet rest k v := by
        simp [dictSet, hk]
      rw [hh]
      simp only [NodupKeys, List.map_cons, List.nodup_cons]
      refine ⟨?_, ih hd.2⟩
      intro hmem
      rcases (mem_map_fst_dictSet rest k v a').mp hmem with h | h
      · exact hd.1 h
      · exact hk h

theorem mem_dictSet_nodup (d : List (K × V)) (hd : NodupKeys d) {a : K} {b : V}
    {k : K} {v : V} (h : (a, b) ∈ dictSet d k v) :
    (a = k ∧ b = v) ∨ ((a, b) ∈ d ∧ a ≠ k) := by
  induction d with
  | nil =>
    simp [dictSet] at h
    exact Or.inl ⟨h.1, h.2⟩
  | cons kv rest ih =>
    obtain ⟨a', b'⟩ := kv
    simp only [NodupKeys, List.map_cons, List.nodup_cons] at hd
    by_cases hk : a' = k
    · subst hk
      have hh : dictSet ((a', b') :: rest) a' v = (a', v) :: rest := by
        simp [dictSet]
      rw [hh] at h
      rcases List.mem_cons.mp h with h | h
      · exact Or.inl ⟨(congrArg Prod.fst h : a = a'), (congrArg Prod.snd h : b = v)⟩
      · right
        refine ⟨List.mem_cons_of_mem _ h, ?_⟩
        intro hak
        exact hd.1 (hak ▸ List.mem_map.mpr ⟨(a, b), h, rfl⟩)
    · have hh : dictSet ((a', b') :: rest) k v = (a', b') :: dictSet rest k v := by
        simp [dictSet, hk]
      rw [hh] at h
      rcases List.mem_cons.mp h with h | h
      · right
        refine ⟨List.mem_cons.mpr (Or.inl h), ?_⟩
        intro hak
        exact hk (((congrArg Prod.fst h).symm.trans hak : a' = k))
      · rcases ih hd.2 h with h' | h'
        · exact Or.inl h'
        · exact Or.inr ⟨List.mem_cons_of_mem _ h'.1, h'.2⟩

theorem mem_of_dictGet_eq_some {d : List (K × V)} {k : K} {v : V}
    (h : dictGet d k = some v) : (k, v) ∈ d := by
  induction d with
  | nil => simp [dictGet] at h
  | cons kv rest ih =>
    obtain ⟨a', b'⟩ := kv
    by_cases hk : a' = k
    · subst hk
      simp [dictGet] at h
      subst h
      exact List.mem_cons_self _ _
    · simp [dictGet, hk] at h
      exact List.mem_cons_of_mem _ (ih h)

theorem dictGet_eq_some_of_mem {d : List (K × V)} (hd : NodupKeys d) {k : K} {v : V}
    (h : (k, v) ∈ d) : dictGet d k = some v := by
  induction d with
  | nil => simp at h
  | cons kv rest ih =>
    obtain ⟨a', b'⟩ := kv
    simp only [NodupKeys, List.map_cons, List.nodup_cons] at hd
    rcases List.mem_cons.mp h with h | h
    · have h1 : k = a' := (congrArg Prod.fst h : k = a')
      have h2 : v = b' := (congrArg Prod.snd h : v = b')
      simp [dictGet, h1, h2]
    · have hk : a' ≠ k := by
        intro hk
        exact hd.1 (hk ▸ List.mem_map.mpr ⟨(k, v), h, rfl⟩)
      simp only [dictGet, if_neg hk]
      exact ih hd.2 h

theorem dictGet_eq_none_iff {d : List (K × V)} {k : K} :
    dictGet d k = none ↔ k ∉ d.map Prod.fst := by
  induction d with
  | nil => simp [dictGet]
  | cons kv rest ih =>
    obtain ⟨a', b'⟩ := kv
    by_cases hk : a' = k
    · simp [dictGet, hk]
    · simp [dictGet, hk, ih, Ne.symm hk]

theorem dictGet_isSome_of_mem_fst {d : List (K × V)} {k : K}
    (h : k ∈ d.map Prod.fst) : (dictGet d k).isSome := by
  cases hg : dictGet d k with
  | none => exact absurd (dictGet_eq_none_iff.mp hg) (by simpa using h)
  | some v => rfl

end DictLemmas

/-! ## Heap access lemmas -/

section HeapLemmas

variable {α : Type} (dflt : α)

theorem getD_append_length (l : List α) (x : α) :
    (l ++ [x]).getD l.length dflt = x := by
  induction l with
  | nil => rfl
  | cons a t ih => simp only [List.cons_append, List.length_cons, List.getD_cons_succ]; exact ih

theorem getD_append_lt (l l' : List α) {i : Nat} (h : i < l.length) :
    (l ++ l').getD i dflt = l.getD i dflt := by
  induction l generalizing i with
  | nil => simp at h
  | cons a t ih =>
    cases i with
    | zero => rfl
    | succ j => simpa using ih (by simpa using h)

theorem getD_set_self (l : List α) {i : Nat} (h : i < l.length) (x : α) :
    (l.set i x).getD i dflt = x := by
  induction l generalizing i with
  | nil => simp at h
  | cons a t ih =>
    cases i with
    | zero => rfl
    | succ j => simpa using ih (by simpa using h)

theorem getD_set_ne (l : List α) {i j : Nat} (h : i ≠ j) (x : α) :
    (l.set i x).getD j dflt = l.getD j dflt := by
  induction l generalizing i j with
  | nil => simp
  | cons a t ih =>
    cases i with
    | zero =>
      cases j with
      | zero => exact absurd rfl h
      | succ j' => rfl
    | succ i' =>
      cases j with
      | zero => rfl
      | succ j' => simpa using ih (fun hh => h (by omega))

theorem getD_of_length_le (l : List α) {i : Nat} (h : l.length ≤ i) :
    l.getD i dflt = dflt := by
  induction l generalizing i with
  | nil => cases i <;> rfl
  | cons a t ih =>
    cases i with
    | zero => simp at h
    | succ j => simpa using ih (by simpa using h)

end HeapLemmas

/-! ## The traversal walk: basic lemmas -/

theorem find_out_fst (g : Graph) (n : Nat) (l : String) :
    (g.find_node_edges_label_outgoing n l).1 = g := rfl

theorem outList_eq (g : Graph) (n : Nat) (l : String) :
    (g.find_node_edges_label_outgoing n l).2 = outList g n l := rfl

theorem mem_outList {g : Graph} {cur : Nat} {label : String} {er : Nat} :
    er ∈ outList g cur label ↔
      (∃ kv ∈ (nodeObj g cur).outgoing, kv.2 = er) ∧
        (edgeObj g er).label = label := by
  simp only [outList, Graph.find_node_edges_label_outgoing, List.mem_filter,
    List.mem_map, beq_iff_eq]

theorem followLoop_fst (g : Graph) (label : String) (fuel cur : Nat) :
    (followLoop g label fuel cur).1 = g := by
  induction fuel generalizing cur with
  | zero => rfl
  | succ n ih =>
    simp only [followLoop]
    cases h : (g.find_node_edges_label_outgoing cur label).2 with
    | nil => simp [h, find_out_fst]
    | cons e rest => simp [h, find_out_fst, ih]

theorem followLoop_succ (g : Graph) (label : String) (fuel cur : Nat) :
    (followLoop g label (fuel + 1) cur).2 =
      match stepOpt g label cur with
      | none => some cur
      | some nxt => (followLoop g label fuel nxt).2 := by
  simp only [followLoop, stepOpt, ← outList_eq]
  cases h : (g.find_node_edges_label_outgoing cur label).2 with
  | nil => simp [h, find_out_fst]
  | cons e rest => simp [h, find_out_fst]

/-- If a node's reference is beyond the node heap, dereferencing yields the
default object, whose adjacency is empty; the walk stops right there. -/
theorem stepOpt_eq_none_of_big {g : Graph} {label : String} {cur : Nat}
    (h : g.nodeHeap.length ≤ cur) : stepOpt g label cur = none := by
  have : nodeObj g cur = default := getD_of_length_le _ _ h
  simp [stepOpt, outList, Graph.find_node_edges_label_outgoing, this]
  rfl

theorem stepOpt_lt {g : Graph} {label : String} {cur nxt : Nat}
    (h : stepOpt g label cur = some nxt) : cur < g.nodeHeap.length := by
  by_contra hle
  rw [stepOpt_eq_none_of_big (by omega)] at h
  exact Option.noConfusion h

theorem labelStep_of_stepOpt {g : Graph} {label : String} {cur nxt : Nat}
    (h : stepOpt g label cur = some nxt) : labelStep g label cur nxt := by
  unfold stepOpt at h
  cases hl : outList g cur label with
  | nil => rw [hl] at h; exact Option.noConfusion h
  | cons e rest =>
    rw [hl] at h
    have he : e ∈ outList g cur label := hl ▸ List.mem_cons_self e rest
    rcases mem_outList.mp he with ⟨⟨kv, hkv, hkv2⟩, hlab⟩
    refine ⟨kv, hkv, hkv2.symm ▸ hlab, ?_⟩
    have : nxt = (edgeObj g e).head := (Option.some.injEq _ _ ▸ h).symm
    rw [this, hkv2]


/-- Core termination argument: if every amount of fuel is exhausted, the
deterministic walk trajectory visits infinitely many pairwise distinct
nodes of the finite node heap — impossible.  So on an acyclic reachable
label subgraph some fuel suffices. -/
theorem followLoop_terminates (g : Graph) (label : String) (cur0 : Nat)
    (hacy : labelAcyclicFrom g label cur0) :
    ∃ fuel, (followLoop g label fuel cur0).2.isSome := by
  by_contra hno
  push_neg at hno
  have hbad : ∀ fuel, (followLoop g label fuel cur0).2 = none := by
    intro fuel
    have := hno fuel
    cases h : (followLoop g label fuel cur0).2 with
    | none => rfl
    | some v => rw [h] at this; simp at this
  -- a state all of whose fuels run out must take a successful step into
  -- another such state
  have step_of_bad : ∀ cur, (∀ fuel, (followLoop g label fuel cur).2 = none) →
      ∃ nxt, stepOpt g label cur = some nxt ∧
        ∀ fuel, (followLoop g label fuel nxt).2 = none := by
    intro cur hcur
    cases hs : stepOpt g label cur with
    | none =>
      have h1 := hcur 1
      rw [followLoop_succ, hs] at h1
      exact Option.noConfusion h1
    | some nxt =>
      refine ⟨nxt, rfl, fun fuel => ?_⟩
      have h1 := hcur (fuel + 1)
      rw [followLoop_succ, hs] at h1
      exact h1
  set traj := walkTraj g label cur0 with htrajdef
  have hbadn : ∀ n, (∀ fuel, (followLoop g label fuel (traj n)).2 = none) ∧
      stepOpt g label (traj n) = some (traj (n + 1)) := by
    intro n
    induction n with
    | zero =>
      rcases step_of_bad cur0 hbad with ⟨nxt, hs, _⟩
      refine ⟨hbad, ?_⟩
      have : traj 1 = nxt := by simp [htrajdef, walkTraj, hs]
      rw [this]
      exact hs
    | succ m ih =>
      have hbm : ∀ fuel, (followLoop g label fuel (traj (m + 1))).2 = none := by
        rcases step_of_bad (traj m) ih.1 with ⟨nxt, hs, hn⟩
        have : traj (m + 1) = nxt := by
          rw [ih.2] at hs
          exact (Option.some.injEq _ _ ▸ hs)
        rwa [this]
      rcases step_of_bad (traj (m + 1)) hbm with ⟨nxt2, hs2, _⟩
      refine ⟨hbm, ?_⟩
      have : traj (m + 1 + 1) = nxt2 := by
        rw [htrajdef, walkTraj, ← htrajdef, hs2]
        rfl
      rw [this]
      exact hs2
  -- every trajectory node takes a step, so lies inside the heap
  have hlt : ∀ n, traj n < g.nodeHeap.length := fun n => stepOpt_lt (hbadn n).2
  -- trajectory nodes are reachable
  have hreach : ∀ n, Relation.ReflTransGen (labelStep g label) cur0 (traj n) := by
    intro n
    induction n with
    | zero => exact Relation.ReflTransGen.refl
    | succ m ih =>
      exact ih.tail (labelStep_of_stepOpt (hbadn m).2)
  -- a repeat in the trajectory yields a cycle
  have hchain : ∀ i k, Relation.TransGen (labelStep g label) (traj i) (traj (i + k + 1)) := by
    intro i k
    induction k with
    | zero => exact Relation.TransGen.single (labelStep_of_stepOpt (hbadn i).2)
    | succ m ih =>
      have := ih.tail (labelStep_of_stepOpt (hbadn (i + m + 1)).2)
      have harith : i + m + 1 + 1 = i + (m + 1) + 1 := by omega
      rwa [harith] at this
  have hinj : Function.Injective
      (fun i : Fin (g.nodeHeap.length + 1) => (⟨traj i, hlt i⟩ : Fin g.nodeHeap.length)) := by
    intro i j hij
    simp only [Fin.mk.injEq] at hij
    by_contra hne
    rcases Nat.lt_or_ge i.val j.val with hlt' | hge
    · obtain ⟨k, hk⟩ : ∃ k, j.val = i.val + k + 1 := ⟨j.val - i.val - 1, by omega⟩
      have hc := hchain i.val k
      rw [← hk, ← hij] at hc
      exact hacy (traj i.val) (hreach i.val) hc
    · have hlt2 : j.val < i.val := by
        rcases Nat.lt_or_ge j.val i.val with h | h
        · exact h
        · exact absurd (Fin.ext (by omega)) hne
      obtain ⟨k, hk⟩ : ∃ k, i.val = j.val + k + 1 := ⟨i.val - j.val - 1, by omega⟩
      have hc := hchain j.val k
      rw [← hk, hij] at hc
      exact hacy (traj j.val) (hreach j.val) hc
  have hcard := Fintype.card_le_of_injective _ hinj
  simp only [Fintype.card_fin] at hcard
  omega

/-- The node a finished walk returns has no outgoing edge with the label
(the loop only exits on an empty filtered list). -/
theorem followLoop_terminal {g : Graph} {label : String} :
    ∀ fuel cur n, (followLoop g label fuel cur).2 = some n →
      outList g n label = [] := by
  intro fuel
  induction fuel with
  | zero =>
    intro cur n h
    exact absurd h (by simp [followLoop])
  | succ m ih =>
    intro cur n h
    rw [followLoop_succ] at h
    cases hs : stepOpt g label cur with
    | none =>
      rw [hs] at h
      have hcn : cur = n := Option.some.injEq _ _ ▸ h
      subst hcn
      unfold stepOpt at hs
      cases hl : outList g cur label with
      | nil => rfl
      | cons e rest => rw [hl] at hs; exact Option.noConfusion hs
    | some nxt =>
      rw [hs] at h
      exact ih nxt n h

theorem outList_eq_nil_iff {g : Graph} {cur : Nat} {label : String} :
    outList g cur label = [] ↔
      ∀ kv ∈ (nodeObj g cur).outgoing, (edgeObj g kv.2).label ≠ label := by
  constructor
  · intro h kv hkv hl
    have hm : kv.2 ∈ outList g cur label := mem_outList.mpr ⟨⟨kv, hkv, rfl⟩, hl⟩
    rw [h] at hm
    exact List.not_mem_nil _ hm
  · intro h
    cases hl : outList g cur label with
    | nil => rfl
    | cons e rest =>
      exfalso
      have he : e ∈ outList g cur label := hl ▸ List.mem_cons_self e rest
      rcases mem_outList.mp he with ⟨⟨kv, hkv, hkv2⟩, hlab⟩
      exact h kv hkv (hkv2.symm ▸ hlab)

/-- Unfolding of `follow_edge_on_label` in terms of the walk
primitives. -/
theorem follow_eq (g : Graph) (eref : Nat) (label : String) (fuel : Nat) :
    (g.follow_edge_on_label eref label fuel).2 =
      match outList g ((edgeObj g eref).head) label with
      | [] => some .noResult
      | _ :: _ =>
        (followLoop g label fuel ((edgeObj g eref).head)).2.map .result := by
  simp only [Graph.follow_edge_on_label]
  cases h : (g.find_node_edges_label_outgoing ((edgeObj g eref).head) label).2 with
  | nil =>
    have h' : outList g ((edgeObj g eref).head) label = [] := h
    rw [h']
  | cons e rest =>
    have h' : outList g ((edgeObj g eref).head) label = e :: rest := h
    rw [h']
    simp [followLoop_fst, find_out_fst]

/-! ## Property matcher lemmas -/

theorem match_dict_countP (d1 d2 : Props) :
    match_dict d1 d2 = d2.countP (fun kv => pyEqOpt (dictGet d1 kv.1) kv.2) := by
  have aux : ∀ (l : List (String × Value)) (init : Nat),
      l.foldl (fun m kv => if pyEqOpt (dictGet d1 kv.1) kv.2 then m + 1 else m) init
        = init + l.countP (fun kv => pyEqOpt (dictGet d1 kv.1) kv.2) := by
    intro l
    induction l with
    | nil => intro init; simp
    | cons kv rest ih =>
      intro init
      by_cases h : pyEqOpt (dictGet d1 kv.1) kv.2 = true
      · simp only [List.foldl_cons, List.countP_cons, h, if_pos, if_true]
        rw [ih]
        omega
      · simp only [List.foldl_cons, List.countP_cons, h]
        rw [if_neg (by simp [h]), ih]
        simp [h]
  simpa [match_dict] using aux d2 0

theorem match_dict_nil (d1 : Props) : match_dict d1 [] = 0 := rfl

/-! ## Claim theorems -/

/-- Claim C6, counterexample.  The claim says `match_count` counts the
query pairs whose key the candidate maps to an equal value "with no type
coercion in the comparison".  The source compares with Python `==`, which
equates `True` and `1`: on candidate `{'k': True}` and query `{'k': 1}`
the code counts 1 match although the candidate maps `'k'` to a boolean,
not to the integer `1` — the exact-equality count (`match_dict_specEq`,
written from the spec's words) is 0. -/
theorem match_count_coerces_bool_int :
    match_dict [("k", .bool true)] [("k", .int 1)] = 1 ∧
    match_dict_specEq [("k", .bool true)] [("k", .int 1)] = 0 ∧
    dictGet [("k", (.bool true : Value))] "k" = some (.bool true) ∧
    (Value.bool true ≠ Value.int 1) := by
  refine ⟨by decide, by decide, by decide, by decide⟩

/-- Claim C6, amended: `match_count(candidate, query)` equals the number
of key/value pairs of the query whose key the candidate maps (per
`candidate.get`) to a Python-`==`-equal value; this comparison is exact on
strings and within each kind and never equates strings with numbers, but
it does equate a boolean with its numeric value (`True == 1`).  For every
candidate an empty query yields 0. -/
theorem match_count_counts_python_eq_matches :
    (∀ c q : Props,
      match_dict c q = q.countP (fun kv => pyEqOpt (dictGet c kv.1) kv.2)) ∧
    (∀ c : Props, match_dict c [] = 0) ∧
    (∀ s1 s2 : String, pyEq (.str s1) (.str s2) = true ↔ s1 = s2) ∧
    (∀ a b : Int, pyEq (.int a) (.int b) = true ↔ a = b) ∧
    (∀ a b : Bool, pyEq (.bool a) (.bool b) = true ↔ a = b) ∧
    (∀ (s : String) (a : Int),
      pyEq (.str s) (.int a) = false ∧ pyEq (.int a) (.str s) = false) ∧
    pyEq (.bool true) (.int 1) = true := by
  refine ⟨match_dict_countP, fun c => rfl, ?_, ?_, ?_, ?_, by decide⟩
  · intro s1 s2; simp [pyEq]
  · intro a b; simp [pyEq]
  · intro a b; simp [pyEq]
  · intro s a; exact ⟨rfl, rfl⟩

/-- Claim C7: `find_node(query)` returns exactly the nodes (values of the
node mapping) whose properties have a strictly positive `match_count`
against the query, as a sublist of the mapping's values in insertion
order, and an empty query returns the empty sequence. -/
theorem find_node_returns_matching_nodes :
    ∀ (g : Graph) (q : Props),
      (∀ r, r ∈ (g.find_node q).2 ↔
        r ∈ g.nodes.map Prod.snd ∧
          0 < match_dict (propsObj g (nodeObj g r).props) q) ∧
      (g.find_node q).2.Sublist (g.nodes.map Prod.snd) ∧
      (g.find_node []).2 = [] := by
  intro g q
  refine ⟨?_, ?_, ?_⟩
  · intro r
    simp only [Graph.find_node, List.mem_filter, bne_iff_ne, ne_eq]
    constructor
    · rintro ⟨hm, hne⟩
      exact ⟨hm, Nat.pos_of_ne_zero hne⟩
    · rintro ⟨hm, hpos⟩
      exact ⟨hm, Nat.pos_iff_ne_zero.mp hpos⟩
  · exact List.filter_sublist _
  · have : ∀ r : Nat,
        (match_dict (propsObj g (nodeObj g r).props) [] != 0) = false := by
      intro r; rfl
    simp only [Graph.find_node]
    rw [List.filter_eq_nil_iff]
    intro a _
    simp [this]

/-- Claim C9: the query operations leave the whole store state (heaps and
both mappings) unchanged: the state component each of them returns is the
input state.  (`match_count` is a static method: it does not even receive
the store, see `match_dict`.) -/
theorem queries_preserve_state :
    ∀ g : Graph,
      (∀ q, (g.find_node q).1 = g) ∧
      (∀ n l, (g.find_node_edges_label_outgoing n l).1 = g) ∧
      (∀ n l, (g.find_node_edges_label_incoming n l).1 = g) ∧
      (∀ e l fuel, (g.follow_edge_on_label e l fuel).1 = g) ∧
      (∀ u, (g.node u).1 = g) ∧
      (∀ u, (g.edge u).1 = g) := by
  intro g
  refine ⟨fun q => rfl, fun n l => rfl, fun n l => rfl, ?_,
    fun u => rfl, fun u => rfl⟩
  intro e l fuel
  simp only [Graph.follow_edge_on_label]
  cases h : (g.find_node_edges_label_outgoing ((edgeObj g e).head) l).2 with
  | nil => simp [h, find_out_fst]
  | cons a rest => simp [h, find_out_fst, followLoop_fst]

/-- Claim C4: `follow_edge_on_label(edge, label)` returns the NoResult
sentinel exactly when `edge.head` has no outgoing edge labeled `label`
(for every fuel); any node it returns has no outgoing edge with the label
(it is the first such node the walk reaches, the loop exiting on the first
empty filtered list); and on the concrete chain
`A --WITHIN--> B --WITHIN--> C` the call on the A→B edge returns C. -/
theorem follow_edge_on_label_spec :
    (∀ (g : Graph) (eref : Nat) (label : String) (fuel : Nat),
      ((g.follow_edge_on_label eref label fuel).2 = some .noResult ↔
        ∀ kv ∈ (nodeObj g (edgeObj g eref).head).outgoing,
          (edgeObj g kv.2).label ≠ label)) ∧
    (∀ (g : Graph) (eref : Nat) (label : String) (fuel n : Nat),
      (g.follow_edge_on_label eref label fuel).2 = some (.result n) →
        ∀ kv ∈ (nodeObj g n).outgoing, (edgeObj g kv.2).label ≠ label) ∧
    (gChain.follow_edge_on_label 0 "WITHIN" 2).2 = some (.result 2) ∧
    propsObj gChain (nodeObj gChain 2).props = [("name", .str "C")] ∧
    (edgeObj gChain 0).tail = 0 ∧ (edgeObj gChain 0).head = 1 ∧
    (edgeObj gChain 1).tail = 1 ∧ (edgeObj gChain 1).head = 2 ∧
    outList gChain 2 "WITHIN" = [] := by
  refine ⟨?_, ?_, by decide, by decide, by decide, by decide, by decide,
    by decide, by decide⟩
  · intro g eref label fuel
    rw [follow_eq]
    cases h : outList g ((edgeObj g eref).head) label with
    | nil =>
      simp only [true_iff]
      exact outList_eq_nil_iff.mp h
    | cons e rest =>
      constructor
      · intro hh
        exfalso
        cases hl2 : (followLoop g label fuel ((edgeObj g eref).head)).2 with
        | none => rw [hl2] at hh; exact Option.noConfusion hh
        | some v =>
          rw [hl2] at hh
          simp only [Option.map_some] at hh
          exact FollowOutcome.noConfusion (Option.some.injEq _ _ ▸ hh)
      · intro hh
        exfalso
        have : outList g ((edgeObj g eref).head) label = [] :=
          outList_eq_nil_iff.mpr hh
        rw [h] at this
        exact List.noConfusion this
  · intro g eref label fuel n hres
    rw [follow_eq] at hres
    cases h : outList g ((edgeObj g eref).head) label with
    | nil =>
      rw [h] at hres
      exact absurd (Option.some.injEq _ _ ▸ hres) (by simp)
    | cons e rest =>
      rw [h] at hres
      change (followLoop g label fuel ((edgeObj g eref).head)).2.map
        FollowOutcome.result = some (.result n) at hres
      cases hl2 : (followLoop g label fuel ((edgeObj g eref).head)).2 with
      | none => rw [hl2] at hres; exact Option.noConfusion hres
      | some v =>
        rw [hl2] at hres
        have hso : some (FollowOutcome.result v) = some (.result n) := hres
        have hv : FollowOutcome.result v = FollowOutcome.result n :=
          Option.some.injEq _ _ ▸ hso
        injection hv with hv'
        subst hv'
        exact outList_eq_nil_iff.mp (followLoop_terminal fuel _ v hl2)

/-- Claim C4, witness: the second conjunct applied to the concrete chain:
the returned node C indeed has no outgoing WITHIN edge. -/
theorem follow_edge_on_label_spec_witness :
    ∀ kv ∈ (nodeObj gChain 2).outgoing, (edgeObj gChain kv.2).label ≠ "WITHIN" :=
  follow_edge_on_label_spec.2.1 gChain 0 "WITHIN" 2 2 (by decide)

/-- Claim C2, counterexample.  The claim asserts non-termination for
*every* graph containing a two-node label cycle.  `gEsc` contains the
cycle `X --L--> Y --L--> X` (nodes 0 and 1, edges 0 and 2), yet the walk
started on the X→Y edge terminates and returns Z: the walk follows the
*first* matching outgoing edge, and Y's first `L` edge is the earlier
escape edge `Y --L--> Z`, not the cycle edge. -/
theorem two_cycle_walk_can_terminate :
    labelStep gEsc "L" 0 1 ∧ labelStep gEsc "L" 1 0 ∧
    (edgeObj gEsc 0).label = "L" ∧ (edgeObj gEsc 0).tail = 0 ∧
    (edgeObj gEsc 0).head = 1 ∧
    (edgeObj gEsc 2).label = "L" ∧ (edgeObj gEsc 2).tail = 1 ∧
    (edgeObj gEsc 2).head = 0 ∧
    (gEsc.follow_edge_on_label 0 "L" 2).2 = some (.result 2) := by
  refine ⟨⟨(.gen 3, 0), by decide, by decide, by decide⟩,
    ⟨(.gen 5, 2), by decide, by decide, by decide⟩,
    by decide, by decide, by decide, by decide, by decide, by decide,
    by decide⟩

/-- Claim C2, amended: in the graph consisting exactly of the two-node
cycle `X --L--> Y --L--> X` (where the walk's first-edge selection is
forced around the cycle), `follow_edge_on_label` on the X→Y edge with
label `L` does not terminate — the loop returns nothing for every amount
of fuel; and conversely, whenever the label-`L` subgraph reachable from
the starting edge's head is acyclic, the walk terminates (some fuel
returns a value). -/
theorem follow_cycle_diverges_and_acyclic_terminates :
    (∀ fuel, (gCyc.follow_edge_on_label 0 "L" fuel).2 = none) ∧
    (∀ (g : Graph) (eref : Nat) (label : String),
      labelAcyclicFrom g label ((edgeObj g eref).head) →
      ∃ fuel o, (g.follow_edge_on_label eref label fuel).2 = some o) := by
  constructor
  · -- the pure two-node cycle: the loop alternates X and Y forever
    have hloop : ∀ f, (followLoop gCyc "L" f 0).2 = none ∧
        (followLoop gCyc "L" f 1).2 = none := by
      intro f
      induction f with
      | zero => exact ⟨rfl, rfl⟩
      | succ m ih =>
        have hs0 : stepOpt gCyc "L" 0 = some 1 := by decide
        have hs1 : stepOpt gCyc "L" 1 = some 0 := by decide
        constructor
        · rw [followLoop_succ, hs0]; exact ih.2
        · rw [followLoop_succ, hs1]; exact ih.1
    intro fuel
    rw [follow_eq]
    have h1 : outList gCyc ((edgeObj gCyc 0).head) "L" = [1] := by decide
    have hh : (edgeObj gCyc 0).head = 1 := by decide
    rw [h1, hh, (hloop fuel).2]
    rfl
  · intro g eref label hacy
    cases h : outList g ((edgeObj g eref).head) label with
    | nil =>
      refine ⟨0, .noResult, ?_⟩
      rw [follow_eq, h]
    | cons e rest =>
      rcases followLoop_terminates g label ((edgeObj g eref).head) hacy with
        ⟨fuel, hsome⟩
      cases hl : (followLoop g label fuel ((edgeObj g eref).head)).2 with
      | none => rw [hl] at hsome; exact absurd hsome (by simp)
      | some v =>
        refine ⟨fuel, .result v, ?_⟩
        rw [follow_eq, h, hl]
        rfl

/-- In `A --L--> B`, the label subgraph reachable from B (the head of the
only edge) is trivially acyclic: B has no outgoing edges at all. -/
theorem gLine_label_acyclic :
    labelAcyclicFrom gLine "L" ((edgeObj gLine 0).head) := by
  have hout : (nodeObj gLine ((edgeObj gLine 0).head)).outgoing = [] := by decide
  intro a hreach htrans
  have hstep : ∀ b, ¬ labelStep gLine "L" ((edgeObj gLine 0).head) b := by
    intro b hb
    rcases hb with ⟨kv, hkv, _⟩
    rw [hout] at hkv
    exact List.not_mem_nil kv hkv
  have ha : a = (edgeObj gLine 0).head := by
    rcases Relation.ReflTransGen.cases_head hreach with h | ⟨c, hc, _⟩
    · exact h.symm
    · exact absurd hc (hstep c)
  subst ha
  rcases Relation.TransGen.head'_iff.mp htrans with ⟨b, hb, _⟩
  exact hstep b hb

/-- Claim C2, witness: the acyclic-termination conjunct applied to the
concrete acyclic graph `A --L--> B`. -/
theorem follow_cycle_diverges_and_acyclic_terminates_witness :
    ∃ fuel o, (gLine.follow_edge_on_label 0 "L" fuel).2 = some o :=
  follow_cycle_diverges_and_acyclic_terminates.2 gLine 0 "L" gLine_label_acyclic

/-! ## Normalized unfolding of add_edge -/

/-- `add_edge`, restated with every intermediate state in normal form:
both endpoint checks read the original mapping (the generator tick and the
props allocation do not touch it), and the three possible post-states are
`aeGraphA` (failure sentinel), `aeGraphB`/`aeGraphC` (`KeyError` after
partial mutation), and `aeGraphD` (success). -/
theorem add_edge_eq (g : Graph) (t : Nat) (label : String) (h : Nat)
    (props : Option Props) (uid? : Option UID) :
    g.add_edge t label h props uid? =
      (if dictGet g.nodes (nodeObj g t).uid = none ∧
          dictGet g.nodes (nodeObj g h).uid = none then
        (aeGraphA g props, .failure)
      else
        match dictGet g.nodes (nodeObj g t).uid with
        | none => (aeGraphB g t label h props (uid?.getD (.gen g.uidCounter)),
            .keyError)
        | some tref =>
          match dictGet g.nodes (nodeObj g h).uid with
          | none => (aeGraphC g t label h props (uid?.getD (.gen g.uidCounter))
              tref, .keyError)
          | some href =>
            match dictGet (dictSet g.edges (uid?.getD (.gen g.uidCounter))
                g.edgeHeap.length) (uid?.getD (.gen g.uidCounter)) with
            | none => (aeGraphD g t label h props
                (uid?.getD (.gen g.uidCounter)) tref href, .failure)
            | some r => (aeGraphD g t label h props
                (uid?.getD (.gen g.uidCounter)) tref href, .ok r)) := by
  cases props <;> with_unfolding_all rfl

theorem aeEdge_uid (g : Graph) (t : Nat) (label : String) (h : Nat)
    (props : Option Props) (uid : UID) :
    (aeEdge g t label h props uid).uid = uid := rfl

theorem aeGraphB_edgeObj (g : Graph) (t : Nat) (label : String) (h : Nat)
    (props : Option Props) (uid : UID) :
    edgeObj (aeGraphB g t label h props uid) g.edgeHeap.length =
      aeEdge g t label h props uid :=
  getD_append_length default g.edgeHeap (aeEdge g t label h props uid)

theorem aeGraphC_edgeObj (g : Graph) (t : Nat) (label : String) (h : Nat)
    (props : Option Props) (uid : UID) (tref : Nat) :
    edgeObj (aeGraphC g t label h props uid tref) g.edgeHeap.length =
      aeEdge g t label h props uid :=
  getD_append_length default g.edgeHeap (aeEdge g t label h props uid)

theorem aeGraphD_edgeObj (g : Graph) (t : Nat) (label : String) (h : Nat)
    (props : Option Props) (uid : UID) (tref href : Nat) :
    edgeObj (aeGraphD g t label h props uid tref href) g.edgeHeap.length =
      aeEdge g t label h props uid :=
  getD_append_length default g.edgeHeap (aeEdge g t label h props uid)

/-- `aeGraphC` with the adjacency key normalized to the edge's uid (the
source writes `self.edges[uid].uid`, which is that uid). -/
theorem aeGraphC_key (g : Graph) (t : Nat) (label : String) (h : Nat)
    (props : Option Props) (uid : UID) (tref : Nat) :
    aeGraphC g t label h props uid tref =
      updateNode (aeGraphB g t label h props uid) tref (fun n =>
        { n with outgoing := dictSet n.outgoing uid g.edgeHeap.length }) := by
  unfold aeGraphC
  simp only [aeGraphB_edgeObj, aeEdge]

/-- `aeGraphD` with the adjacency key normalized to the edge's uid. -/
theorem aeGraphD_key (g : Graph) (t : Nat) (label : String) (h : Nat)
    (props : Option Props) (uid : UID) (tref href : Nat) :
    aeGraphD g t label h props uid tref href =
      updateNode (aeGraphC g t label h props uid tref) href (fun n =>
        { n with incoming := dictSet n.incoming uid g.edgeHeap.length }) := by
  unfold aeGraphD
  simp only [aeGraphC_edgeObj, aeEdge]

/-- Updating a node object in place changes only that heap cell. -/
theorem nodeObj_updateNode_self (g : Graph) (r : Nat) (f : NodeObj → NodeObj)
    (hr : r < g.nodeHeap.length) :
    nodeObj (updateNode g r f) r = f (nodeObj g r) := by
  show (g.nodeHeap.set r (f (nodeObj g r))).getD r default = f (nodeObj g r)
  rw [getD_set_self _ _ hr]

theorem nodeObj_updateNode_ne (g : Graph) (r : Nat) (f : NodeObj → NodeObj)
    {j : Nat} (hj : j ≠ r) :
    nodeObj (updateNode g r f) j = nodeObj g j := by
  show (g.nodeHeap.set r (f (nodeObj g r))).getD j default = nodeObj g j
  rw [getD_set_ne _ _ (fun hx => hj hx.symm)]
  rfl

theorem updateNode_nodeHeap_length (g : Graph) (r : Nat) (f : NodeObj → NodeObj) :
    (updateNode g r f).nodeHeap.length = g.nodeHeap.length := by
  show (g.nodeHeap.set r (f (nodeObj g r))).length = g.nodeHeap.length
  rw [List.length_set]

/-- In the success state, a node object's outgoing adjacency gained the
edge exactly when the node is the mapping's tail entry. -/
theorem aeGraphD_outgoing (g : Graph) (t : Nat) (label : String) (h : Nat)
    (props : Option Props) (uid : UID) (tref href : Nat)
    (htref : tref < g.nodeHeap.length) (hhref : href < g.nodeHeap.length)
    (j : Nat) :
    (nodeObj (aeGraphD g t label h props uid tref href) j).outgoing =
      if j = tref then dictSet (nodeObj g j).outgoing uid g.edgeHeap.length
      else (nodeObj g j).outgoing := by
  rw [aeGraphD_key, aeGraphC_key]
  have hB : (aeGraphB g t label h props uid).nodeHeap = g.nodeHeap := rfl
  have hBobj : ∀ i, nodeObj (aeGraphB g t label h props uid) i = nodeObj g i :=
    fun i => rfl
  have hClen : (updateNode (aeGraphB g t label h props uid) tref
      (fun n => { n with outgoing := dictSet n.outgoing uid g.edgeHeap.length })).nodeHeap.length
        = g.nodeHeap.length := by
    rw [updateNode_nodeHeap_length]
    show g.nodeHeap.length = g.nodeHeap.length
    rfl
  have inner : ∀ i, (nodeObj (updateNode (aeGraphB g t label h props uid) tref
      (fun n => { n with outgoing := dictSet n.outgoing uid g.edgeHeap.length })) i).outgoing =
        (if i = tref then dictSet (nodeObj g i).outgoing uid g.edgeHeap.length
         else (nodeObj g i).outgoing) := by
    intro i
    by_cases hit : i = tref
    · subst hit
      rw [nodeObj_updateNode_self _ _ _ (by rw [hB]; exact htref), hBobj]
      simp
    · rw [nodeObj_updateNode_ne _ _ _ hit, hBobj]
      simp [hit]
  by_cases hjh : j = href
  · subst hjh
    rw [nodeObj_updateNode_self _ _ _ (by rw [hClen]; exact hhref)]
    exact inner j
  · rw [nodeObj_updateNode_ne _ _ _ hjh]
    exact inner j

/-- In the success state, a node object's incoming adjacency gained the
edge exactly when the node is the mapping's head entry. -/
theorem aeGraphD_incoming (g : Graph) (t : Nat) (label : String) (h : Nat)
    (props : Option Props) (uid : UID) (tref href : Nat)
    (htref : tref < g.nodeHeap.length) (hhref : href < g.nodeHeap.length)
    (j : Nat) :
    (nodeObj (aeGraphD g t label h props uid tref href) j).incoming =
      if j = href then dictSet (nodeObj g j).incoming uid g.edgeHeap.length
      else (nodeObj g j).incoming := by
  rw [aeGraphD_key, aeGraphC_key]
  have hB : (aeGraphB g t label h props uid).nodeHeap = g.nodeHeap := rfl
  have hBobj : ∀ i, nodeObj (aeGraphB g t label h props uid) i = nodeObj g i :=
    fun i => rfl
  have hClen : (updateNode (aeGraphB g t label h props uid) tref
      (fun n => { n with outgoing := dictSet n.outgoing uid g.edgeHeap.length })).nodeHeap.length
        = g.nodeHeap.length := by
    rw [updateNode_nodeHeap_length]
    show g.nodeHeap.length = g.nodeHeap.length
    rfl
  have inner : ∀ i, (nodeObj (updateNode (aeGraphB g t label h props uid) tref
      (fun n => { n with outgoing := dictSet n.outgoing uid g.edgeHeap.length })) i).incoming =
        (nodeObj g i).incoming := by
    intro i
    by_cases hit : i = tref
    · subst hit
      rw [nodeObj_updateNode_self _ _ _ (by rw [hB]; exact htref), hBobj]
    · rw [nodeObj_updateNode_ne _ _ _ hit, hBobj]
  by_cases hjh : j = href
  · subst hjh
    rw [nodeObj_updateNode_self _ _ _ (by rw [hClen]; exact hhref)]
    simp [inner j]
  · rw [nodeObj_updateNode_ne _ _ _ hjh]
    simp [hjh, inner j]

/-- The success state leaves every node object's uid and properties
reference untouched. -/
theorem aeGraphD_uid_props (g : Graph) (t : Nat) (label : String) (h : Nat)
    (props : Option Props) (uid : UID) (tref href : Nat)
    (htref : tref < g.nodeHeap.length) (hhref : href < g.nodeHeap.length)
    (j : Nat) :
    (nodeObj (aeGraphD g t label h props uid tref href) j).uid = (nodeObj g j).uid ∧
    (nodeObj (aeGraphD g t label h props uid tref href) j).props = (nodeObj g j).props := by
  rw [aeGraphD_key, aeGraphC_key]
  have hB : (aeGraphB g t label h props uid).nodeHeap = g.nodeHeap := rfl
  have hBobj : ∀ i, nodeObj (aeGraphB g t label h props uid) i = nodeObj g i :=
    fun i => rfl
  have hClen : (updateNode (aeGraphB g t label h props uid) tref
      (fun n => { n with outgoing := dictSet n.outgoing uid g.edgeHeap.length })).nodeHeap.length
        = g.nodeHeap.length := by
    rw [updateNode_nodeHeap_length]
    show g.nodeHeap.length = g.nodeHeap.length
    rfl
  have inner : ∀ i, (nodeObj (updateNode (aeGraphB g t label h props uid) tref
      (fun n => { n with outgoing := dictSet n.outgoing uid g.edgeHeap.length })) i).uid =
        (nodeObj g i).uid ∧
      (nodeObj (updateNode (aeGraphB g t label h props uid) tref
      (fun n => { n with outgoing := dictSet n.outgoing uid g.edgeHeap.length })) i).props =
        (nodeObj g i).props := by
    intro i
    by_cases hit : i = tref
    · subst hit
      rw [nodeObj_updateNode_self _ _ _ (by rw [hB]; exact htref), hBobj]
      exact ⟨rfl, rfl⟩
    · rw [nodeObj_updateNode_ne _ _ _ hit, hBobj]
      exact ⟨rfl, rfl⟩
  by_cases hjh : j = href
  · subst hjh
    rw [nodeObj_updateNode_self _ _ _ (by rw [hClen]; exact hhref)]
    exact ⟨(inner j).1, (inner j).2⟩
  · rw [nodeObj_updateNode_ne _ _ _ hjh]
    exact inner j

/-- Success branch of `add_edge`: when both endpoint uids are in the node
mapping, the result is the fully linked state and the created edge. -/
theorem add_edge_ok_shape (g : Graph) (t : Nat) (label : String) (h : Nat)
    (props : Option Props) (uid? : Option UID) {tref href : Nat}
    (hdt : dictGet g.nodes (nodeObj g t).uid = some tref)
    (hdh : dictGet g.nodes (nodeObj g h).uid = some href) :
    g.add_edge t label h props uid? =
      (aeGraphD g t label h props (uid?.getD (.gen g.uidCounter)) tref href,
        .ok g.edgeHeap.length) := by
  rw [add_edge_eq, if_neg (by simp [hdt]), hdt, hdh, dictGet_dictSet_self]

/-- Failure branch of `add_edge`: both endpoint uids absent. -/
theorem add_edge_failure_shape (g : Graph) (t : Nat) (label : String) (h : Nat)
    (props : Option Props) (uid? : Option UID)
    (hdt : dictGet g.nodes (nodeObj g t).uid = none)
    (hdh : dictGet g.nodes (nodeObj g h).uid = none) :
    g.add_edge t label h props uid? = (aeGraphA g props, .failure) := by
  rw [add_edge_eq, if_pos ⟨hdt, hdh⟩]

/-- `KeyError` branch of `add_edge`, tail uid absent (head present): the
edge is already in the edge mapping when the fault is raised. -/
theorem add_edge_tail_absent_shape (g : Graph) (t : Nat) (label : String)
    (h : Nat) (props : Option Props) (uid? : Option UID) {href : Nat}
    (hdt : dictGet g.nodes (nodeObj g t).uid = none)
    (hdh : dictGet g.nodes (nodeObj g h).uid = some href) :
    g.add_edge t label h props uid? =
      (aeGraphB g t label h props (uid?.getD (.gen g.uidCounter)), .keyError) := by
  rw [add_edge_eq, if_neg (by simp [hdh]), hdt]

/-- `KeyError` branch of `add_edge`, head uid absent (tail present): the
edge mapping and the tail's outgoing adjacency are already mutated when
the fault is raised. -/
theorem add_edge_head_absent_shape (g : Graph) (t : Nat) (label : String)
    (h : Nat) (props : Option Props) (uid? : Option UID) {tref : Nat}
    (hdt : dictGet g.nodes (nodeObj g t).uid = some tref)
    (hdh : dictGet g.nodes (nodeObj g h).uid = none) :
    g.add_edge t label h props uid? =
      (aeGraphC g t label h props (uid?.getD (.gen g.uidCounter)) tref,
        .keyError) := by
  rw [add_edge_eq, if_neg (by simp [hdt]), hdt, hdh]

/-- Claim C1, counterexample.  In `gOneEnd`, exactly one endpoint of the
attempted edge is present in the node mapping (the head `H`; the tail `T`
was built by direct construction and its uid `t` is untracked).  The
claim says this call "succeeds and returns the created Edge (without
raising any fault)"; the code instead raises `KeyError` at
`self.nodes[tail_uid]` — and the same happens with the endpoints swapped,
where the fault comes from `self.nodes[head_uid]`. -/
theorem add_edge_one_endpoint_raises :
    dictGet gOneEnd.nodes (nodeObj gOneEnd 1).uid = none ∧
    dictGet gOneEnd.nodes (nodeObj gOneEnd 0).uid = some 0 ∧
    (gOneEnd.add_edge 1 "L" 0 none none).2 = .keyError ∧
    (gOneEnd.add_edge 0 "L" 1 none none).2 = .keyError ∧
    (gOneEnd.add_edge 1 "L" 0 none none).2 ≠ .failure ∧
    (∀ r, (gOneEnd.add_edge 1 "L" 0 none none).2 ≠ .ok r) := by
  refine ⟨by decide, by decide, by decide, by decide, by decide, ?_⟩
  intro r hr
  have : AddEdgeResult.keyError = AddEdgeResult.ok r := by
    rw [show (gOneEnd.add_edge 1 "L" 0 none none).2 = .keyError from by decide] at hr
    exact hr
  exact AddEdgeResult.noConfusion this

/-- Claim C1, amended: `add_edge` returns the failure sentinel `None` if
and only if neither endpoint's uid is a key of the node mapping; but when
exactly one endpoint is present the call does not succeed — it raises
`KeyError` (after already inserting the edge into the edge mapping), in
either direction of the asymmetry. -/
theorem add_edge_failure_iff_both_absent :
    (∀ (g : Graph) (t : Nat) (label : String) (h : Nat)
      (props : Option Props) (uid? : Option UID),
      ((g.add_edge t label h props uid?).2 = .failure ↔
        dictGet g.nodes (nodeObj g t).uid = none ∧
        dictGet g.nodes (nodeObj g h).uid = none)) ∧
    (∀ (g : Graph) (t : Nat) (label : String) (h : Nat)
      (props : Option Props) (uid? : Option UID),
      dictGet g.nodes (nodeObj g t).uid = none →
      dictGet g.nodes (nodeObj g h).uid ≠ none →
      (g.add_edge t label h props uid?).2 = .keyError) ∧
    (∀ (g : Graph) (t : Nat) (label : String) (h : Nat)
      (props : Option Props) (uid? : Option UID),
      dictGet g.nodes (nodeObj g t).uid ≠ none →
      dictGet g.nodes (nodeObj g h).uid = none →
      (g.add_edge t label h props uid?).2 = .keyError) := by
  refine ⟨?_, ?_, ?_⟩
  · intro g t label h props uid?
    constructor
    · intro hf
      by_cases hdt : dictGet g.nodes (nodeObj g t).uid = none
      · by_cases hdh : dictGet g.nodes (nodeObj g h).uid = none
        · exact ⟨hdt, hdh⟩
        · exfalso
          rcases Option.ne_none_iff_exists'.mp hdh with ⟨href, hdh'⟩
          rw [add_edge_tail_absent_shape g t label h props uid? hdt hdh'] at hf
          exact AddEdgeResult.noConfusion hf
      · rcases Option.ne_none_iff_exists'.mp hdt with ⟨tref, hdt'⟩
        by_cases hdh : dictGet g.nodes (nodeObj g h).uid = none
        · exfalso
          rw [add_edge_head_absent_shape g t label h props uid? hdt' hdh] at hf
          exact AddEdgeResult.noConfusion hf
        · exfalso
          rcases Option.ne_none_iff_exists'.mp hdh with ⟨href, hdh'⟩
          rw [add_edge_ok_shape g t label h props uid? hdt' hdh'] at hf
          exact AddEdgeResult.noConfusion hf
    · rintro ⟨hdt, hdh⟩
      rw [add_edge_failure_shape g t label h props uid? hdt hdh]
  · intro g t label h props uid? hdt hdh
    rcases Option.ne_none_iff_exists'.mp hdh with ⟨href, hdh'⟩
    rw [add_edge_tail_absent_shape g t label h props uid? hdt hdh']
  · intro g t label h props uid? hdt hdh
    rcases Option.ne_none_iff_exists'.mp hdt with ⟨tref, hdt'⟩
    rw [add_edge_head_absent_shape g t label h props uid? hdt' hdh]

/-- Claim C1, witness: the amended theorem's `KeyError` conjunct applied
to the concrete one-endpoint-present store. -/
theorem add_edge_failure_iff_both_absent_witness :
    (gOneEnd.add_edge 1 "L" 0 none none).2 = .keyError :=
  add_edge_failure_iff_both_absent.2.1 gOneEnd 1 "L" 0 none none
    (by decide) (by decide)

/-- Claim C5: for endpoint node objects that are the mapping's current
entries for their uids, `add_edge(tail, L, head, p)` succeeds and yields
an edge `e` with label `L` and properties `p` such that
`tail.outgoing[e.uid] is e`, `head.incoming[e.uid] is e`, and
`graph.edge(e.uid) is e` (reference identity is equality of heap
references). -/
theorem add_edge_success_links :
    ∀ (g : Graph) (t : Nat) (label : String) (h : Nat) (p : Props),
      t < g.nodeHeap.length → h < g.nodeHeap.length →
      dictGet g.nodes (nodeObj g t).uid = some t →
      dictGet g.nodes (nodeObj g h).uid = some h →
      ∃ eref,
        (g.add_edge t label h (some p) none).2 = .ok eref ∧
        (edgeObj (g.add_edge t label h (some p) none).1 eref).label = label ∧
        (edgeObj (g.add_edge t label h (some p) none).1 eref).tail = t ∧
        (edgeObj (g.add_edge t label h (some p) none).1 eref).head = h ∧
        propsObj (g.add_edge t label h (some p) none).1
          (edgeObj (g.add_edge t label h (some p) none).1 eref).props = p ∧
        dictGet (nodeObj (g.add_edge t label h (some p) none).1 t).outgoing
          (edgeObj (g.add_edge t label h (some p) none).1 eref).uid = some eref ∧
        dictGet (nodeObj (g.add_edge t label h (some p) none).1 h).incoming
          (edgeObj (g.add_edge t label h (some p) none).1 eref).uid = some eref ∧
        ((g.add_edge t label h (some p) none).1.edge
          (edgeObj (g.add_edge t label h (some p) none).1 eref).uid).2 = some eref := by
  intro g t label h p ht hh hdt hdh
  rw [add_edge_ok_shape g t label h (some p) none hdt hdh]
  refine ⟨g.edgeHeap.length, rfl, ?_, ?_, ?_, ?_, ?_, ?_, ?_⟩
  · rw [aeGraphD_edgeObj]; rfl
  · rw [aeGraphD_edgeObj]; rfl
  · rw [aeGraphD_edgeObj]; rfl
  · rw [aeGraphD_edgeObj]
    show propsObj (aeGraphD g t label h (some p) _ t h) (aePref g (some p)) = p
    show (aePropsHeap g (some p)).getD (aePref g (some p)) [] = p
    show (g.propsHeap ++ [p]).getD g.propsHeap.length [] = p
    exact getD_append_length [] g.propsHeap p
  · rw [aeGraphD_edgeObj, aeEdge_uid, aeGraphD_outgoing g t label h (some p) _ t h ht hh t,
      if_pos rfl, dictGet_dictSet_self]
  · rw [aeGraphD_edgeObj, aeEdge_uid, aeGraphD_incoming g t label h (some p) _ t h ht hh h,
      if_pos rfl, dictGet_dictSet_self]
  · rw [aeGraphD_edgeObj, aeEdge_uid]
    show dictGet (aeGraphD g t label h (some p) _ t h).edges _ = some g.edgeHeap.length
    show dictGet (dictSet g.edges (Option.getD none (.gen g.uidCounter)) g.edgeHeap.length)
      (Option.getD none (.gen g.uidCounter)) = some g.edgeHeap.length
    exact dictGet_dictSet_self _ _ _

theorem aeGraphD_edgeHeap (g : Graph) (t : Nat) (l : String) (h : Nat)
    (props : Option Props) (uid : UID) (tref href : Nat) :
    (aeGraphD g t l h props uid tref href).edgeHeap =
      g.edgeHeap ++ [aeEdge g t l h props uid] := rfl

theorem aeGraphD_edgeObj_props_none (g : Graph) (t : Nat) (l : String) (h : Nat)
    (uid : UID) (tref href : Nat) :
    (edgeObj (aeGraphD g t l h none uid tref href) g.edgeHeap.length).props =
      g.edgeDefaultProps := by
  rw [aeGraphD_edgeObj]
  rfl

theorem edgeObj_aeGraphD_old (g : Graph) (t : Nat) (l : String) (h : Nat)
    (props : Option Props) (uid : UID) (tref href : Nat) {r : Nat}
    (hr : r < g.edgeHeap.length) :
    edgeObj (aeGraphD g t l h props uid tref href) r = edgeObj g r := by
  show (g.edgeHeap ++ [aeEdge g t l h props uid]).getD r default
    = g.edgeHeap.getD r default
  exact getD_append_lt default g.edgeHeap _ hr

/-- Reading back a dict through a second reference to the same dict after
an external write through the first. -/
theorem writeEdgeProp_read (g : Graph) (r : Nat) (k : String) (v : Value)
    (D : Nat) (hpr : (edgeObj g r).props = D) (hD : D < g.propsHeap.length) :
    propsObj (writeEdgeProp g r k v) D = dictSet (propsObj g D) k v := by
  show (g.propsHeap.set (edgeObj g r).props
    (dictSet (propsObj g (edgeObj g r).props) k v)).getD D [] = _
  rw [hpr]
  exact getD_set_self [] g.propsHeap hD _

/-- Inversion of a successful `add_edge`: the result can only come from
the fully linked branch. -/
theorem add_edge_ok_inv (g : Graph) (t : Nat) (label : String) (h : Nat)
    (props : Option Props) (uid? : Option UID) {g' : Graph} {r : Nat}
    (hok : g.add_edge t label h props uid? = (g', .ok r)) :
    ∃ tref href, dictGet g.nodes (nodeObj g t).uid = some tref ∧
      dictGet g.nodes (nodeObj g h).uid = some href ∧
      r = g.edgeHeap.length ∧
      g' = aeGraphD g t label h props (uid?.getD (.gen g.uidCounter)) tref href := by
  by_cases hdt : dictGet g.nodes (nodeObj g t).uid = none
  · by_cases hdh : dictGet g.nodes (nodeObj g h).uid = none
    · rw [add_edge_failure_shape g t label h props uid? hdt hdh] at hok
      exact absurd (congrArg Prod.snd hok : AddEdgeResult.failure = .ok r) (by simp)
    · rcases Option.ne_none_iff_exists'.mp hdh with ⟨href, hdh'⟩
      rw [add_edge_tail_absent_shape g t label h props uid? hdt hdh'] at hok
      exact absurd (congrArg Prod.snd hok : AddEdgeResult.keyError = .ok r) (by simp)
  · rcases Option.ne_none_iff_exists'.mp hdt with ⟨tref, hdt'⟩
    by_cases hdh : dictGet g.nodes (nodeObj g h).uid = none
    · rw [add_edge_head_absent_shape g t label h props uid? hdt' hdh] at hok
      exact absurd (congrArg Prod.snd hok : AddEdgeResult.keyError = .ok r) (by simp)
    · rcases Option.ne_none_iff_exists'.mp hdh with ⟨href, hdh'⟩
      rw [add_edge_ok_shape g t label h props uid? hdt' hdh'] at hok
      have hsnd : AddEdgeResult.ok g.edgeHeap.length = .ok r :=
        congrArg Prod.snd hok
      injection hsnd with hr
      exact ⟨tref, href, hdt', hdh', hr.symm, (congrArg Prod.fst hok).symm⟩

/-- Claim C10: any two edges created by `add_edge` calls that omit the
`properties` argument reference one and the same dict — the function's
shared default `{}` — in whatever order they were created; inserting a
key/value pair into one edge's properties makes it observable through the
other edge's properties.  (`g.edgeDefaultProps < g.propsHeap.length` holds
in every store descended from `Graph.init`, whose props heap starts with
that shared dict.) -/
theorem add_edge_default_props_shared :
    ∀ (g g1 g2 : Graph) (t1 h1 t2 h2 r1 r2 : Nat) (l1 l2 : String)
      (u1 u2 : Option UID),
      g.add_edge t1 l1 h1 none u1 = (g1, .ok r1) →
      g1.add_edge t2 l2 h2 none u2 = (g2, .ok r2) →
      g.edgeDefaultProps < g.propsHeap.length →
      (edgeObj g2 r1).props = (edgeObj g2 r2).props ∧
      (edgeObj g2 r1).props = g.edgeDefaultProps ∧
      (∀ k v, dictGet (propsObj (writeEdgeProp g2 r1 k v)
        (edgeObj g2 r2).props) k = some v) ∧
      (∀ k v, dictGet (propsObj (writeEdgeProp g2 r2 k v)
        (edgeObj g2 r1).props) k = some v) := by
  intro g g1 g2 t1 h1 t2 h2 r1 r2 l1 l2 u1 u2 hok1 hok2 hd
  rcases add_edge_ok_inv g t1 l1 h1 none u1 hok1 with
    ⟨t1r, h1r, hdt1, hdh1, hr1, hg1⟩
  subst hg1
  subst hr1
  rcases add_edge_ok_inv _ t2 l2 h2 none u2 hok2 with
    ⟨t2r, h2r, hdt2, hdh2, hr2, hg2⟩
  subst hg2
  subst hr2
  set U1 := u1.getD (UID.gen g.uidCounter) with hU1
  set D1 := aeGraphD g t1 l1 h1 none U1 t1r h1r with hD1
  set U2 := u2.getD (UID.gen D1.uidCounter) with hU2
  set G2 := aeGraphD D1 t2 l2 h2 none U2 t2r h2r with hG2
  have hlen1 : g.edgeHeap.length < D1.edgeHeap.length := by
    rw [hD1, aeGraphD_edgeHeap]
    simp
  have hp1 : (edgeObj G2 g.edgeHeap.length).props = g.edgeDefaultProps := by
    rw [hG2, edgeObj_aeGraphD_old D1 t2 l2 h2 none U2 t2r h2r hlen1, hD1]
    exact aeGraphD_edgeObj_props_none g t1 l1 h1 U1 t1r h1r
  have hp2 : (edgeObj G2 D1.edgeHeap.length).props = g.edgeDefaultProps := by
    rw [hG2]
    have hx := aeGraphD_edgeObj_props_none D1 t2 l2 h2 U2 t2r h2r
    refine hx.trans ?_
    rw [hD1]
    rfl
  have hph : G2.propsHeap = g.propsHeap := by
    rw [hG2, hD1]
    rfl
  refine ⟨hp1.trans hp2.symm, hp1, ?_, ?_⟩
  · intro k v
    rw [hp2, writeEdgeProp_read _ _ k v g.edgeDefaultProps hp1 (by rw [hph]; exact hd),
      dictGet_dictSet_self]
  · intro k v
    rw [hp1, writeEdgeProp_read _ _ k v g.edgeDefaultProps hp2 (by rw [hph]; exact hd),
      dictGet_dictSet_self]

/-- Claim C10, witness: on the two-node store, the two edges created with
the properties argument omitted share one dict (the default), and writing
`"key" ↦ 5` through the first edge's properties is read back through the
second edge's properties. -/
theorem add_edge_default_props_shared_witness :
    (edgeObj ((gTwo.add_edge 0 "L" 1 none none).1.add_edge 1 "M" 0 none
        none).1 0).props =
      (edgeObj ((gTwo.add_edge 0 "L" 1 none none).1.add_edge 1 "M" 0 none
        none).1 1).props ∧
    (edgeObj ((gTwo.add_edge 0 "L" 1 none none).1.add_edge 1 "M" 0 none
        none).1 0).props = gTwo.edgeDefaultProps ∧
    dictGet (propsObj (writeEdgeProp ((gTwo.add_edge 0 "L" 1 none
        none).1.add_edge 1 "M" 0 none none).1 0 "key" (.int 5))
      (edgeObj ((gTwo.add_edge 0 "L" 1 none none).1.add_edge 1 "M" 0 none
        none).1 1).props) "key" = some (.int 5) :=
  have T := add_edge_default_props_shared gTwo
    (gTwo.add_edge 0 "L" 1 none none).1
    ((gTwo.add_edge 0 "L" 1 none none).1.add_edge 1 "M" 0 none none).1
    0 1 1 0 0 1 "L" "M" none none
    (Prod.ext rfl (by decide)) (Prod.ext rfl (by decide)) (by decide)
  ⟨T.1, T.2.1, T.2.2.1 "key" (.int 5)⟩

/-- `add_node`, restated with the result in normal form. -/
theorem add_node_eq (g : Graph) (p : Props) (uid? : Option UID) :
    g.add_node p uid? =
      ({ g with
          nodeHeap := g.nodeHeap ++
            [⟨uid?.getD (.gen g.uidCounter), g.propsHeap.length, [], []⟩],
          propsHeap := g.propsHeap ++ [p],
          nodes := dictSet g.nodes (uid?.getD (.gen g.uidCounter))
            g.nodeHeap.length,
          uidCounter := g.uidCounter + 1 }, g.nodeHeap.length) := rfl

/-- Whatever branch `add_edge` takes, it leaves the node mapping alone and
ticks the generator counter once. -/
theorem add_edge_nodes_counter (g : Graph) (t : Nat) (label : String) (h : Nat)
    (props : Option Props) (uid? : Option UID) :
    (g.add_edge t label h props uid?).1.nodes = g.nodes ∧
    (g.add_edge t label h props uid?).1.uidCounter = g.uidCounter + 1 := by
  rw [add_edge_eq]
  by_cases hc : dictGet g.nodes (nodeObj g t).uid = none ∧
      dictGet g.nodes (nodeObj g h).uid = none
  · rw [if_pos hc]
    exact ⟨rfl, rfl⟩
  · rw [if_neg hc]
    cases hdt : dictGet g.nodes (nodeObj g t).uid with
    | none => exact ⟨rfl, rfl⟩
    | some tref =>
      cases hdh : dictGet g.nodes (nodeObj g h).uid with
      | none => exact ⟨rfl, rfl⟩
      | some href =>
        rw [dictGet_dictSet_self]
        exact ⟨rfl, rfl⟩

theorem UIDok_none (g : Graph) : UIDok g none :=
  fun _ hn => Option.noConfusion hn

theorem UIDok_user (g : Graph) (s : String) : UIDok g (some (.user s)) :=
  fun _ hn => UID.noConfusion (Option.some.injEq _ _ ▸ hn)

/-- Every reachable store keeps all generated uids among its node-mapping
keys strictly below the generator counter. -/
theorem reach_genKeysBounded {g : Graph} (hg : Reach g) : GenKeysBounded g := by
  induction hg with
  | init =>
    intro n hn
    simp [Graph.init] at hn
  | add_node g p uid? hr hok ih =>
    intro n hn
    have hnodes : (g.add_node p uid?).1.nodes =
        dictSet g.nodes (uid?.getD (.gen g.uidCounter)) g.nodeHeap.length := rfl
    have hcnt : (g.add_node p uid?).1.uidCounter = g.uidCounter + 1 := rfl
    rw [hnodes] at hn
    rw [hcnt]
    rcases (mem_map_fst_dictSet g.nodes (uid?.getD (.gen g.uidCounter))
        g.nodeHeap.length (UID.gen n)).mp hn with hmem | heq
    · exact Nat.lt_succ_of_lt (ih n hmem)
    · cases uid? with
      | none =>
        have : UID.gen n = UID.gen g.uidCounter := heq
        injection this with hnn
        omega
      | some u =>
        have : u = UID.gen n := heq.symm
        exact Nat.lt_succ_of_lt (hok n (by rw [this]))
  | add_edge g t label h props uid? hr ht hh hok ih =>
    intro n hn
    rw [(add_edge_nodes_counter g t label h props uid?).1] at hn
    rw [(add_edge_nodes_counter g t label h props uid?).2]
    exact Nat.lt_succ_of_lt (ih n hn)

/-- The two-node scaffold store is reachable. -/
theorem Reach_gTwo : Reach gTwo :=
  Reach.add_node _ [("name", .str "B")] none
    (Reach.add_node Graph.init [("name", .str "A")] none Reach.init
      (UIDok_none _))
    (UIDok_none _)

/-- Claim C8: `add_node(p)` (no explicit uid) returns a node whose
properties equal `p`, whose outgoing and incoming adjacency dicts are
empty, which sits in the node mapping under its uid, and whose uid differs
from every key already in the node mapping.  (For a store built only
through the public operations, the node-mapping keys are exactly the uids
returned by prior `add_node` calls on this store instance — keys are
inserted only by `add_node` and never removed — so the last conjunct is
the claim's uniqueness property.) -/
theorem add_node_spec :
    ∀ (g : Graph) (p : Props), Reach g →
      propsObj (g.add_node p none).1
        (nodeObj (g.add_node p none).1 (g.add_node p none).2).props = p ∧
      (nodeObj (g.add_node p none).1 (g.add_node p none).2).outgoing = [] ∧
      (nodeObj (g.add_node p none).1 (g.add_node p none).2).incoming = [] ∧
      dictGet (g.add_node p none).1.nodes
        (nodeObj (g.add_node p none).1 (g.add_node p none).2).uid
        = some (g.add_node p none).2 ∧
      (nodeObj (g.add_node p none).1 (g.add_node p none).2).uid
        ∉ g.nodes.map Prod.fst := by
  intro g p hg
  have hobj : nodeObj (g.add_node p none).1 (g.add_node p none).2 =
      ⟨.gen g.uidCounter, g.propsHeap.length, [], []⟩ := by
    rw [add_node_eq]
    exact getD_append_length default g.nodeHeap _
  refine ⟨?_, ?_, ?_, ?_, ?_⟩
  · rw [hobj]
    show (g.propsHeap ++ [p]).getD g.propsHeap.length [] = p
    exact getD_append_length [] g.propsHeap p
  · rw [hobj]
  · rw [hobj]
  · rw [hobj]
    show dictGet (dictSet g.nodes (UID.gen g.uidCounter) g.nodeHeap.length)
      (UID.gen g.uidCounter) = some (g.add_node p none).2
    rw [dictGet_dictSet_self]
    rfl
  · rw [hobj]
    intro hmem
    exact absurd (reach_genKeysBounded hg g.uidCounter hmem) (by omega)

/-- The empty store satisfies the linkage invariant. -/
theorem storeInv_init : StoreInv Graph.init := by
  refine ⟨List.nodup_nil, List.nodup_nil, ?_, ?_, ?_, ?_, ?_, ?_, ?_⟩
  · intro i hi
    exact absurd hi (by simp [Graph.init])
  · intro k r h
    exact absurd h (by simp [Graph.init, dictGet])
  · intro k r h
    exact absurd h (by simp [Graph.init, dictGet])
  · intro i hi
    exact absurd hi (by simp [Graph.init])
  · intro k r h
    exact absurd h (by simp [Graph.init, dictGet])
  · intro k r h
    exact absurd h (by simp [Graph.init, dictGet])
  · intro k r h
    exact absurd h (by simp [Graph.init, dictGet])

/-- `add_node` preserves the linkage invariant: the new node has empty
adjacency, existing objects are untouched, and the edge structures do not
change. -/
theorem add_node_preserves_inv (g : Graph) (p : Props) (uid? : Option UID)
    (inv : StoreInv g) : StoreInv (g.add_node p uid?).1 := by
  set uid := uid?.getD (.gen g.uidCounter) with huid
  have hnodes : (g.add_node p uid?).1.nodes =
      dictSet g.nodes uid g.nodeHeap.length := rfl
  have hedges : (g.add_node p uid?).1.edges = g.edges := rfl
  have helen : (g.add_node p uid?).1.edgeHeap = g.edgeHeap := rfl
  have hlen : (g.add_node p uid?).1.nodeHeap.length = g.nodeHeap.length + 1 := by
    rw [add_node_eq]
    simp
  have hold : ∀ i, i < g.nodeHeap.length →
      nodeObj (g.add_node p uid?).1 i = nodeObj g i := by
    intro i hi
    show (g.nodeHeap ++ [(⟨uid, g.propsHeap.length, [], []⟩ : NodeObj)]).getD i default
      = nodeObj g i
    exact getD_append_lt default g.nodeHeap _ hi
  have hnew : nodeObj (g.add_node p uid?).1 g.nodeHeap.length =
      ⟨uid, g.propsHeap.length, [], []⟩ := by
    show (g.nodeHeap ++ [(⟨uid, g.propsHeap.length, [], []⟩ : NodeObj)]).getD
      g.nodeHeap.length default = _
    exact getD_append_length default g.nodeHeap _
  have hedgeObj : ∀ r, edgeObj (g.add_node p uid?).1 r = edgeObj g r :=
    fun r => rfl
  refine ⟨?_, ?_, ?_, ?_, ?_, ?_, ?_, ?_, ?_⟩
  · rw [hnodes]
    exact nodupKeys_dictSet _ inv.nodesNodup _ _
  · rw [hedges]
    exact inv.edgesNodup
  · intro i hi
    rw [hlen] at hi
    by_cases hilt : i < g.nodeHeap.length
    · rw [hold i hilt]
      exact inv.adjNodup i hilt
    · have : i = g.nodeHeap.length := by omega
      subst this
      rw [hnew]
      exact ⟨List.nodup_nil, List.nodup_nil⟩
  · intro k r hdg
    rw [hnodes] at hdg
    by_cases hk : k = uid
    · subst hk
      rw [dictGet_dictSet_self] at hdg
      injection hdg with hr
      refine ⟨by rw [hlen]; omega, ?_⟩
      rw [← hr, hnew]
    · rw [dictGet_dictSet_ne _ hk] at hdg
      obtain ⟨hlt, huid'⟩ := inv.nodesValid k r hdg
      exact ⟨by rw [hlen]; omega, by rw [hold r hlt]; exact huid'⟩
  · intro k r hdg
    rw [hedges] at hdg
    obtain ⟨h1, h2, h3, h4⟩ := inv.edgesValid k r hdg
    refine ⟨by rw [helen]; exact h1, by rw [hedgeObj]; exact h2,
      ?_, ?_⟩
    · rw [hedgeObj, hlen]
      omega
    · rw [hedgeObj, hlen]
      omega
  · intro i hi
    rw [hlen] at hi
    by_cases hilt : i < g.nodeHeap.length
    · rw [hold i hilt, helen]
      exact inv.adjBound i hilt
    · have : i = g.nodeHeap.length := by omega
      subst this
      rw [hnew]
      exact ⟨fun kv hkv => absurd hkv (List.not_mem_nil kv),
        fun kv hkv => absurd hkv (List.not_mem_nil kv)⟩
  · intro k r hdg
    rw [hedges] at hdg
    obtain ⟨hl1, hl2⟩ := inv.linked k r hdg
    obtain ⟨_, _, h3, h4⟩ := inv.edgesValid k r hdg
    rw [hedgeObj, hold _ h3, hold _ h4]
    exact ⟨hl1, hl2⟩
  · intro k r hdg i hi kv hkv hv
    rw [hedges] at hdg
    rw [hlen] at hi
    rw [hedgeObj]
    by_cases hilt : i < g.nodeHeap.length
    · rw [hold i hilt] at hkv
      exact inv.uniqueOut k r hdg i hilt kv hkv hv
    · have : i = g.nodeHeap.length := by omega
      subst this
      rw [hnew] at hkv
      exact absurd hkv (List.not_mem_nil kv)
  · intro k r hdg i hi kv hkv hv
    rw [hedges] at hdg
    rw [hlen] at hi
    rw [hedgeObj]
    by_cases hilt : i < g.nodeHeap.length
    · rw [hold i hilt] at hkv
      exact inv.uniqueIn k r hdg i hilt kv hkv hv
    · have : i = g.nodeHeap.length := by omega
      subst this
      rw [hnew] at hkv
      exact absurd hkv (List.not_mem_nil kv)

theorem aeGraphD_nodeHeap_length (g : Graph) (t : Nat) (l : String) (h : Nat)
    (props : Option Props) (uid : UID) (tref href : Nat) :
    (aeGraphD g t l h props uid tref href).nodeHeap.length = g.nodeHeap.length := by
  rw [aeGraphD_key, aeGraphC_key, updateNode_nodeHeap_length,
    updateNode_nodeHeap_length]
  rfl

/-- A well-behaved `add_edge` call preserves the linkage invariant. -/
theorem add_edge_preserves_inv (g : Graph) (t : Nat) (label : String) (h : Nat)
    (props : Option Props) (uid? : Option UID)
    (ht : t < g.nodeHeap.length) (hh : h < g.nodeHeap.length)
    (hcurt : dictGet g.nodes (nodeObj g t).uid = some t)
    (hcurh : dictGet g.nodes (nodeObj g h).uid = some h)
    (inv : StoreInv g) :
    StoreInv (g.add_edge t label h props uid?).1 := by
  rw [add_edge_ok_shape g t label h props uid? hcurt hcurh]
  set U := uid?.getD (.gen g.uidCounter) with hU
  set G' := aeGraphD g t label h props U t h with hG'
  show StoreInv G'
  have hnodes : G'.nodes = g.nodes := rfl
  have hedges : G'.edges = dictSet g.edges U g.edgeHeap.length := rfl
  have hnlen : G'.nodeHeap.length = g.nodeHeap.length :=
    aeGraphD_nodeHeap_length g t label h props U t h
  have helen : G'.edgeHeap.length = g.edgeHeap.length + 1 := by
    rw [hG', aeGraphD_edgeHeap]
    simp
  have hout : ∀ j, (nodeObj G' j).outgoing =
      if j = t then dictSet (nodeObj g j).outgoing U g.edgeHeap.length
      else (nodeObj g j).outgoing :=
    fun j => aeGraphD_outgoing g t label h props U t h ht hh j
  have hin : ∀ j, (nodeObj G' j).incoming =
      if j = h then dictSet (nodeObj g j).incoming U g.edgeHeap.length
      else (nodeObj g j).incoming :=
    fun j => aeGraphD_incoming g t label h props U t h ht hh j
  have hup : ∀ j, (nodeObj G' j).uid = (nodeObj g j).uid ∧
      (nodeObj G' j).props = (nodeObj g j).props :=
    fun j => aeGraphD_uid_props g t label h props U t h ht hh j
  have heNew : edgeObj G' g.edgeHeap.length = aeEdge g t label h props U :=
    aeGraphD_edgeObj g t label h props U t h
  have heOld : ∀ r, r < g.edgeHeap.length → edgeObj G' r = edgeObj g r :=
    fun r hr => edgeObj_aeGraphD_old g t label h props U t h hr
  refine ⟨?_, ?_, ?_, ?_, ?_, ?_, ?_, ?_, ?_⟩
  · rw [hnodes]
    exact inv.nodesNodup
  · rw [hedges]
    exact nodupKeys_dictSet _ inv.edgesNodup _ _
  · intro i hi
    rw [hnlen] at hi
    rw [hout i, hin i]
    constructor
    · by_cases hit : i = t
      · rw [if_pos hit]
        exact nodupKeys_dictSet _ (inv.adjNodup i hi).1 _ _
      · rw [if_neg hit]
        exact (inv.adjNodup i hi).1
    · by_cases hih : i = h
      · rw [if_pos hih]
        exact nodupKeys_dictSet _ (inv.adjNodup i hi).2 _ _
      · rw [if_neg hih]
        exact (inv.adjNodup i hi).2
  · intro k r hdg
    rw [hnodes] at hdg
    obtain ⟨h1, h2⟩ := inv.nodesValid k r hdg
    exact ⟨by rw [hnlen]; exact h1, by rw [(hup r).1]; exact h2⟩
  · intro k r hdg
    rw [hedges] at hdg
    by_cases hk : k = U
    · subst hk
      rw [dictGet_dictSet_self] at hdg
      injection hdg with hr
      subst hr
      refine ⟨by rw [helen]; omega, ?_, ?_, ?_⟩
      · rw [heNew]
        rfl
      · rw [heNew, hnlen]
        exact ht
      · rw [heNew, hnlen]
        exact hh
    · rw [dictGet_dictSet_ne _ hk] at hdg
      obtain ⟨h1, h2, h3, h4⟩ := inv.edgesValid k r hdg
      refine ⟨by rw [helen]; omega, ?_, ?_, ?_⟩
      · rw [heOld r h1]
        exact h2
      · rw [heOld r h1, hnlen]
        exact h3
      · rw [heOld r h1, hnlen]
        exact h4
  · intro i hi
    rw [hnlen] at hi
    rw [hout i, hin i]
    constructor
    · by_cases hit : i = t
      · rw [if_pos hit]
        intro kv hkv
        rcases mem_dictSet _ hkv with ⟨_, hv⟩ | hmem
        · rw [hv, helen]
          omega
        · have := (inv.adjBound i hi).1 kv hmem
          rw [helen]
          omega
      · rw [if_neg hit]
        intro kv hkv
        have := (inv.adjBound i hi).1 kv hkv
        rw [helen]
        omega
    · by_cases hih : i = h
      · rw [if_pos hih]
        intro kv hkv
        rcases mem_dictSet _ hkv with ⟨_, hv⟩ | hmem
        · rw [hv, helen]
          omega
        · have := (inv.adjBound i hi).2 kv hmem
          rw [helen]
          omega
      · rw [if_neg hih]
        intro kv hkv
        have := (inv.adjBound i hi).2 kv hkv
        rw [helen]
        omega
  · intro k r hdg
    rw [hedges] at hdg
    by_cases hk : k = U
    · subst hk
      rw [dictGet_dictSet_self] at hdg
      injection hdg with hr
      subst hr
      constructor
      · rw [heNew]
        show dictGet (nodeObj G' t).outgoing U = some g.edgeHeap.length
        rw [hout t, if_pos rfl, dictGet_dictSet_self]
      · rw [heNew]
        show dictGet (nodeObj G' h).incoming U = some g.edgeHeap.length
        rw [hin h, if_pos rfl, dictGet_dictSet_self]
    · rw [dictGet_dictSet_ne _ hk] at hdg
      obtain ⟨h1, h2, h3, h4⟩ := inv.edgesValid k r hdg
      obtain ⟨hl1, hl2⟩ := inv.linked k r hdg
      constructor
      · rw [heOld r h1, hout ((edgeObj g r).tail)]
        by_cases htl : (edgeObj g r).tail = t
        · rw [if_pos htl, dictGet_dictSet_ne _ hk]
          exact hl1
        · rw [if_neg htl]
          exact hl1
      · rw [heOld r h1, hin ((edgeObj g r).head)]
        by_cases hhd : (edgeObj g r).head = h
        · rw [if_pos hhd, dictGet_dictSet_ne _ hk]
          exact hl2
        · rw [if_neg hhd]
          exact hl2
  · intro k r hdg i hi kv hkv hv
    rw [hedges] at hdg
    rw [hnlen] at hi
    rw [hout i] at hkv
    by_cases hk : k = U
    · subst hk
      rw [dictGet_dictSet_self] at hdg
      injection hdg with hr
      subst hr
      by_cases hit : i = t
      · subst hit
        rw [if_pos rfl] at hkv
        rcases mem_dictSet_nodup _ (inv.adjNodup i hi).1 hkv with ⟨hk1, _⟩ | ⟨hmem, _⟩
        · refine ⟨?_, hk1⟩
          rw [heNew]
          rfl
        · have := (inv.adjBound i hi).1 kv hmem
          omega
      · rw [if_neg hit] at hkv
        have := (inv.adjBound i hi).1 kv hkv
        omega
    · rw [dictGet_dictSet_ne _ hk] at hdg
      obtain ⟨h1, _, _, _⟩ := inv.edgesValid k r hdg
      by_cases hit : i = t
      · subst hit
        rw [if_pos rfl] at hkv
        rcases mem_dictSet_nodup _ (inv.adjNodup i hi).1 hkv with ⟨_, hv2⟩ | ⟨hmem, _⟩
        · rw [hv] at hv2
          omega
        · obtain ⟨hteq, hkey⟩ := inv.uniqueOut k r hdg i hi kv hmem hv
          exact ⟨by rw [heOld r h1]; exact hteq, hkey⟩
      · rw [if_neg hit] at hkv
        obtain ⟨hteq, hkey⟩ := inv.uniqueOut k r hdg i hi kv hkv hv
        exact ⟨by rw [heOld r h1]; exact hteq, hkey⟩
  · intro k r hdg i hi kv hkv hv
    rw [hedges] at hdg
    rw [hnlen] at hi
    rw [hin i] at hkv
    by_cases hk : k = U
    · subst hk
      rw [dictGet_dictSet_self] at hdg
      injection hdg with hr
      subst hr
      by_cases hih : i = h
      · subst hih
        rw [if_pos rfl] at hkv
        rcases mem_dictSet_nodup _ (inv.adjNodup i hi).2 hkv with ⟨hk1, _⟩ | ⟨hmem, _⟩
        · refine ⟨?_, hk1⟩
          rw [heNew]
          rfl
        · have := (inv.adjBound i hi).2 kv hmem
          omega
      · rw [if_neg hih] at hkv
        have := (inv.adjBound i hi).2 kv hkv
        omega
    · rw [dictGet_dictSet_ne _ hk] at hdg
      obtain ⟨h1, _, _, _⟩ := inv.edgesValid k r hdg
      by_cases hih : i = h
      · subst hih
        rw [if_pos rfl] at hkv
        rcases mem_dictSet_nodup _ (inv.adjNodup i hi).2 hkv with ⟨_, hv2⟩ | ⟨hmem, _⟩
        · rw [hv] at hv2
          omega
        · obtain ⟨hheq, hkey⟩ := inv.uniqueIn k r hdg i hi kv hmem hv
          exact ⟨by rw [heOld r h1]; exact hheq, hkey⟩
      · rw [if_neg hih] at hkv
        obtain ⟨hheq, hkey⟩ := inv.uniqueIn k r hdg i hi kv hkv hv
        exact ⟨by rw [heOld r h1]; exact hheq, hkey⟩

/-- Every state reachable through well-behaved creation satisfies the
linkage invariant. -/
theorem goodReach_storeInv {g : Graph} (hg : GoodReach g) : StoreInv g := by
  induction hg with
  | init => exact storeInv_init
  | add_node g p uid? hr hok ih => exact add_node_preserves_inv g p uid? ih
  | add_edge g t label h props uid? hr ht hh hok hcurt hcurh ih =>
    exact add_edge_preserves_inv g t label h props uid? ht hh hcurt hcurh ih

theorem countP_eq_one_of_unique {l : List (UID × Nat)} (hnd : NodupKeys l)
    {u : UID} {r : Nat} (hmem : (u, r) ∈ l)
    (huni : ∀ kv ∈ l, kv.2 = r → kv.1 = u) :
    l.countP (fun kv => kv.2 == r) = 1 := by
  induction l with
  | nil => simp at hmem
  | cons kv rest ih =>
    obtain ⟨a, b⟩ := kv
    simp only [NodupKeys, List.map_cons, List.nodup_cons] at hnd
    rcases List.mem_cons.mp hmem with hhd | htl
    · have ha : a = u := (congrArg Prod.fst hhd.symm : a = u)
      have hb : b = r := (congrArg Prod.snd hhd.symm : b = r)
      have hrest : rest.countP (fun kv => kv.2 == r) = 0 := by
        rw [List.countP_eq_zero]
        intro x hx hxr
        have hx2 : x.2 = r := by simpa using hxr
        have hxu : x.1 = u := huni x (List.mem_cons_of_mem _ hx) hx2
        apply hnd.1
        rw [ha, ← hxu]
        exact List.mem_map.mpr ⟨x, hx, rfl⟩
      simp only [List.countP_cons]
      rw [hrest]
      simp [hb]
    · have hbne : b ≠ r := by
        intro hb
        have hau : a = u := huni (a, b) (List.mem_cons_self _ _) hb
        exact hnd.1 (by rw [hau]; exact List.mem_map.mpr ⟨(u, r), htl, rfl⟩)
      have hone := ih hnd.2 htl
        (fun x hx hxr => huni x (List.mem_cons_of_mem _ hx) hxr)
      simp only [List.countP_cons]
      rw [hone]
      simp [hbne]

/-- The two-node scaffold and the one-edge line are reachable through
well-behaved creation. -/
theorem GoodReach_gTwo : GoodReach gTwo :=
  GoodReach.add_node _ [("name", .str "B")] none
    (GoodReach.add_node Graph.init [("name", .str "A")] none GoodReach.init
      (UIDok_none _))
    (UIDok_none _)

theorem GoodReach_gLine : GoodReach gLine :=
  GoodReach.add_edge gTwo 0 "L" 1 none none GoodReach_gTwo
    (by decide) (by decide) (UIDok_none _) (by decide) (by decide)

/-- Claim C3, counterexample.  The state `gBad` is reached through the
public create operations alone: two explicit-uid `add_node` calls on the
same uid `U` (the second displaces the first object O1 from the mapping),
one generated-uid `add_node` (H), then `add_edge(O1, "L", H)` with the
stale object O1.  The created edge is in the edge mapping and its tail is
O1 (reference 0), yet O1's outgoing map is empty — the store linked the
edge into the *current* mapping entry O2 (reference 1) instead.  So the
edge does not appear in its tail's outgoing map, contradicting the
claim. -/
theorem edge_missing_from_tail_outgoing :
    Reach gBad ∧
    dictGet gBad.edges (.gen 3) = some 0 ∧
    (edgeObj gBad 0).uid = .gen 3 ∧
    (edgeObj gBad 0).tail = 0 ∧
    (nodeObj gBad 0).outgoing = [] ∧
    dictGet (nodeObj gBad 1).outgoing (.gen 3) = some 0 := by
  refine ⟨?_, by decide, by decide, by decide, by decide, by decide⟩
  have R1 := Reach.add_node Graph.init [] (some (.user "U")) Reach.init
    (UIDok_user _ _)
  have R2 := Reach.add_node _ [] (some (.user "U")) R1 (UIDok_user _ _)
  have R3 := Reach.add_node _ [] none R2 (UIDok_none _)
  exact Reach.add_edge _ 0 "L" 2 none none R3 (by decide) (by decide)
    (UIDok_none _)

/-- Claim C3, amended: in every store state reached through the public
create operations in which each `add_edge` call received endpoint objects
that were, at call time, the node mapping's current entries for their uids
(`GoodReach` — automatic when no explicit-uid overwrite has displaced a
node object the caller still holds), every edge in the edge mapping
appears in exactly one node's outgoing map — its tail's, keyed by the
edge's uid — and in exactly one node's incoming map — its head's, keyed by
the same uid — each exactly once.  An explicit-uid overwrite followed by
an `add_edge` on the stale object breaks the tail association
(`edge_missing_from_tail_outgoing`). -/
theorem edge_linked_exactly_once :
    ∀ g, GoodReach g → ∀ u r, dictGet g.edges u = some r →
      (edgeObj g r).uid = u ∧
      dictGet (nodeObj g (edgeObj g r).tail).outgoing u = some r ∧
      dictGet (nodeObj g (edgeObj g r).head).incoming u = some r ∧
      (∀ i, i < g.nodeHeap.length → ∀ kv ∈ (nodeObj g i).outgoing,
        kv.2 = r → i = (edgeObj g r).tail ∧ kv.1 = u) ∧
      (∀ i, i < g.nodeHeap.length → ∀ kv ∈ (nodeObj g i).incoming,
        kv.2 = r → i = (edgeObj g r).head ∧ kv.1 = u) ∧
      (nodeObj g (edgeObj g r).tail).outgoing.countP (fun kv => kv.2 == r) = 1 ∧
      (nodeObj g (edgeObj g r).head).incoming.countP (fun kv => kv.2 == r) = 1 := by
  intro g hg u r hdg
  have inv := goodReach_storeInv hg
  obtain ⟨hb1, hb2, hb3, hb4⟩ := inv.edgesValid u r hdg
  obtain ⟨hl1, hl2⟩ := inv.linked u r hdg
  refine ⟨hb2, hl1, hl2, inv.uniqueOut u r hdg, inv.uniqueIn u r hdg, ?_, ?_⟩
  · refine countP_eq_one_of_unique (inv.adjNodup _ hb3).1
      (mem_of_dictGet_eq_some hl1) ?_
    intro kv hkv hv
    exact (inv.uniqueOut u r hdg _ hb3 kv hkv hv).2
  · refine countP_eq_one_of_unique (inv.adjNodup _ hb4).2
      (mem_of_dictGet_eq_some hl2) ?_
    intro kv hkv hv
    exact (inv.uniqueIn u r hdg _ hb4 kv hkv hv).2

/-- Claim C3, witness: the amended theorem applied to the one-edge line
store, whose single edge (uid `gen 2`, reference 0) sits exactly once in
its tail's outgoing map. -/
theorem edge_linked_exactly_once_witness :
    dictGet (nodeObj gLine (edgeObj gLine 0).tail).outgoing (.gen 2) = some 0 ∧
    (nodeObj gLine (edgeObj gLine 0).tail).outgoing.countP
      (fun kv => kv.2 == 0) = 1 :=
  have T := edge_linked_exactly_once gLine GoodReach_gLine (.gen 2) 0 (by decide)
  ⟨T.2.1, T.2.2.2.2.2.1⟩

/-- Claim C8, witness: applied to the reachable two-node store. -/
theorem add_node_spec_witness :
    propsObj (gTwo.add_node [("x", .int 1)] none).1
      (nodeObj (gTwo.add_node [("x", .int 1)] none).1
        (gTwo.add_node [("x", .int 1)] none).2).props = [("x", .int 1)] ∧
    (nodeObj (gTwo.add_node [("x", .int 1)] none).1
      (gTwo.add_node [("x", .int 1)] none).2).uid ∉ gTwo.nodes.map Prod.fst :=
  have T := add_node_spec gTwo [("x", .int 1)] Reach_gTwo
  ⟨T.1, T.2.2.2.2⟩

/-- Claim C5, witness: applied to the two-node store `gTwo`. -/
theorem add_edge_success_links_witness :
    ∃ eref,
      (gTwo.add_edge 0 "L" 1 (some [("w", .int 7)]) none).2 = .ok eref ∧
      (edgeObj (gTwo.add_edge 0 "L" 1 (some [("w", .int 7)]) none).1 eref).label = "L" ∧
      (edgeObj (gTwo.add_edge 0 "L" 1 (some [("w", .int 7)]) none).1 eref).tail = 0 ∧
      (edgeObj (gTwo.add_edge 0 "L" 1 (some [("w", .int 7)]) none).1 eref).head = 1 ∧
      propsObj (gTwo.add_edge 0 "L" 1 (some [("w", .int 7)]) none).1
        (edgeObj (gTwo.add_edge 0 "L" 1 (some [("w", .int 7)]) none).1 eref).props
        = [("w", .int 7)] ∧
      dictGet (nodeObj (gTwo.add_edge 0 "L" 1 (some [("w", .int 7)]) none).1 0).outgoing
        (edgeObj (gTwo.add_edge 0 "L" 1 (some [("w", .int 7)]) none).1 eref).uid
        = some eref ∧
      dictGet (nodeObj (gTwo.add_edge 0 "L" 1 (some [("w", .int 7)]) none).1 1).incoming
        (edgeObj (gTwo.add_edge 0 "L" 1 (some [("w", .int 7)]) none).1 eref).uid
        = some eref ∧
      ((gTwo.add_edge 0 "L" 1 (some [("w", .int 7)]) none).1.edge
        (edgeObj (gTwo.add_edge 0 "L" 1 (some [("w", .int 7)]) none).1 eref).uid).2
        = some eref :=
  add_edge_success_links gTwo 0 "L" 1 [("w", .int 7)]
    (by decide) (by decide) (by decide) (by decide)

end PropertyGraph
